import Mathlib

/-!
Verification of the NEAT-style neural-network core of snake-bevy.

This file shallowly embeds the genome ("Net") data model and its operations
from src/neural_net (nets.rs, activation_functions.rs, layers.rs, nodes.rs,
connections.rs, populations.rs) and the output interpretation from
src/nn_plays_snake/mod.rs, and proves or refutes the frozen claims about them.

Embedding conventions:
- f32 values (weights, node values, fitnesses, probability draws) are modelled
  as rationals; every concrete input used below is exactly representable in
  f32 and the arithmetic performed on it is exact, so the model and the source
  agree on those inputs.
- The transcendental activation functions (sigmoid, tanh) cannot be evaluated
  exactly over the rationals, so the evaluation pass takes them as explicit
  function parameters; the piecewise-algebraic activations (identity, ReLU,
  leaky ReLU) are given exactly.
- Randomness (thread_rng) is modelled by explicit choice records: every
  gen_bool(p) site consumes a recorded uniform draw u in the unit interval and
  returns u < p; every gen_range / choose site consumes a recorded pick that is
  reduced modulo the list length.
- Rust panics (asserts, unwraps, out-of-range indexing, the recursion-depth
  guard) are modelled by Option: a function returns Option.none exactly when
  the source panics.  The source counts recursion upward until it exceeds
  2 * node-count; the model equivalently counts fuel downward from
  2 * node-count + 1.
- Node and connection local indices are list positions; the debug-only NetId
  tag carried inside source indices has no counterpart in a value-level model,
  and the id-to-index hash maps are modelled by first-match lookup on the id
  (identical behaviour while ids are distinct, which the source asserts).
-/

namespace SnakeBevy

/- Batteries marks rational arithmetic irreducible; re-allow unfolding so that
the concrete scenarios below evaluate by decide. -/
unseal Rat.mul Rat.add Rat.sub Rat.inv

/-- Activation function tags, from activation_functions.rs. -/
inductive ActivationFunction where
  | none
  | sigmoid
  | relu
  | lrelu
  | tanh
deriving DecidableEq, Repr

/-- Activation application, from ActivationFunction::apply.  The f32 sigmoid
and tanh are abstracted as the parameters σ and τ; the other three arms are
the source formulas exactly. -/
def ActivationFunction.apply (σ τ : ℚ → ℚ) : ActivationFunction → ℚ → ℚ
  | .none, x => x
  | .sigmoid, x => σ x
  | .relu, x => if 0 < x then x else 0
  | .lrelu, x => if 0 ≤ x then x else mkRat 1 10 * x
  | .tanh, x => τ x

/-- Neutral values, from ActivationFunction::get_neutral_value. -/
def ActivationFunction.get_neutral_value : ActivationFunction → ℚ
  | .none => 1
  | .sigmoid => 4
  | .relu => 1
  | .lrelu => 1
  | .tanh => mkRat 237 100

/-- Layer classification of a node, from layers.rs. -/
inductive Layer where
  | input
  | hidden (depth : ℕ)
  | output
  | unreachable
deriving DecidableEq, Repr

/-- Layer::to_number.  The source stores hidden depths in a u16, so
Output maps to u16::MAX + 1 = 65536 and Unreachable to 65537. -/
def Layer.to_number : Layer → ℕ
  | .input => 0
  | .hidden i => i + 1
  | .output => 65536
  | .unreachable => 65537

/-- Layer::comes_before, from layers.rs. -/
def Layer.comes_before (self other : Layer) : Option Bool :=
  if self = Layer.unreachable then
    if other = Layer.output then some true
    else if other = Layer.input then some false
    else Option.none
  else if other = Layer.unreachable then
    if self = Layer.input then some true
    else if self = Layer.output then some false
    else Option.none
  else some (decide (self.to_number < other.to_number))

/-- A connection gene, from connections.rs.  input_node and output_node are
local node positions in the owning genome. -/
structure Connection where
  id : ℕ
  input_node : ℕ
  output_node : ℕ
  weight : ℚ
  is_enabled : Bool
deriving DecidableEq, Repr

/-- A node gene, from nodes.rs.  input_connections holds local connection
positions. -/
structure Node where
  id : ℕ
  activation_function : ActivationFunction
  layer : Layer
  input_connections : List ℕ
  value : ℚ
deriving DecidableEq, Repr

/-- A genome, from nets.rs (Net).  net_params is flattened to the two counts
(the optional display-name tables play no computational role), and the
id-to-index hash maps are replaced by first-match lookup. -/
structure Net where
  id : ℕ
  input_count : ℕ
  output_count : ℕ
  nodes : List Node
  connections : List Connection
  fitness_info : ℚ
  is_evaluation_order_up_to_date : Bool
  node_order_list : List ℕ
deriving DecidableEq, Repr

/-- Mutation probabilities, from MutationParams in nets.rs. -/
structure MutationParams where
  prob_mutate_activation_function_of_node : ℚ
  prob_mutate_weight : ℚ
  max_weight_change_magnitude : ℚ
  prob_toggle_enabled : ℚ
  prob_remove_connection : ℚ
  prob_add_connection : ℚ
  prob_remove_node : ℚ
  prob_add_node : ℚ
deriving DecidableEq, Repr

/-- thread_rng().gen_bool(p): the recorded uniform draw lies in the unit
interval and the roll succeeds when it falls below p. -/
def genBool (draw p : ℚ) : Bool :=
  decide (0 ≤ draw ∧ draw < p)

/-- Net::adjust_prob. -/
def adjust_prob (p adjuster : ℚ) : ℚ :=
  min 1 (p * adjuster)

/-- Net::choose_index / SliceRandom::choose: a uniformly random element,
with the recorded pick reduced modulo the length; empty lists yield
Option.none (the source's gen_range(0..0) panic, resp. choose = None). -/
def chooseIndex {α : Type} (l : List α) (pick : ℕ) : Option α :=
  l.get? (pick % l.length)

/-- Net::choose_index_not: up to 20 random attempts to pick an element
different from the banned one; runs of 20 failures panic (Option.none).
tries records the random index drawn at each attempt. -/
def chooseIndexNotAux (l : List ℕ) (ban : ℕ) (tries : ℕ → ℕ) : ℕ → ℕ → Option ℕ
  | _, 0 => Option.none
  | t, fuel + 1 =>
    match chooseIndex l (tries t) with
    | Option.none => Option.none
    | some v => if v ≠ ban then some v else chooseIndexNotAux l ban tries (t + 1) fuel

/-- Entry point of Net::choose_index_not (20 attempts). -/
def chooseIndexNot (l : List ℕ) (ban : ℕ) (tries : ℕ → ℕ) : Option ℕ :=
  chooseIndexNotAux l ban tries 0 20

/-- Net::add_node: appends a node (the source's fresh/default arguments are
made explicit at each call site). -/
def Net.add_node (net : Net) (id : ℕ) (af : ActivationFunction) (layer : Layer)
    (value : ℚ) : Net :=
  { net with nodes := net.nodes ++ [⟨id, af, layer, [], value⟩] }

/-- Helper for Net.add_connection: record the new connection position in its
output node's incoming list. -/
def pushIncoming (nodes : List Node) (out ci : ℕ) : List Node :=
  match nodes.get? out with
  | some n => nodes.set out { n with input_connections := n.input_connections ++ [ci] }
  | Option.none => nodes

/-- Net::add_connection: appends a connection and registers it with its output
node. -/
def Net.add_connection (net : Net) (id : ℕ) (weight : ℚ) (is_enabled : Bool)
    (input_node output_node : ℕ) : Net :=
  { net with
    connections := net.connections ++ [⟨id, input_node, output_node, weight, is_enabled⟩],
    nodes := pushIncoming net.nodes output_node net.connections.length }

/-- Net::new: input_count Input nodes (identity activation) followed by
output_count Output nodes (sigmoid), in that order; no connections.  ids
supplies the process-wide fresh node ids. -/
def Net.new (netId input_count output_count : ℕ) (ids : ℕ → ℕ) : Net :=
  let base : Net := ⟨netId, input_count, output_count, [], [], 0, false, []⟩
  let withInputs := (List.range input_count).foldl
    (fun n k => n.add_node (ids k) ActivationFunction.none Layer.input 0) base
  (List.range output_count).foldl
    (fun n k => n.add_node (ids (input_count + k)) ActivationFunction.sigmoid Layer.output 0)
    withInputs

/-- Net::set_inputs body: write each input value into the corresponding node,
asserting the node is in the Input layer. -/
def setInputsLoop : List Node → List ℚ → Option (List Node)
  | nodes, [] => some nodes
  | [], _ :: _ => Option.none
  | n :: rest, v :: vs =>
    if n.layer = Layer.input then
      (setInputsLoop rest vs).map (fun tail => { n with value := v } :: tail)
    else Option.none

/-- Net::set_inputs: requires values.len() == input_count, then assigns each
value to the corresponding Input node. -/
def Net.set_inputs (net : Net) (inputs : List ℚ) : Option Net :=
  if inputs.length = net.input_count then
    (setInputsLoop net.nodes inputs).map (fun nodes => { net with nodes := nodes })
  else Option.none

/-- Net::get_outputs: the values of nodes input_count .. input_count +
output_count, asserting each is in the Output layer. -/
def Net.get_outputs (net : Net) : Option (List ℚ) :=
  ((net.nodes.drop net.input_count).take net.output_count).mapM
    (fun n => if n.layer = Layer.output then some n.value else Option.none)

/-- One summand of the evaluation sum: predecessor value times connection
weight (Option.none when an index is out of range, where the source panics). -/
def connTerm (nodes : List Node) (conns : List Connection) (ci : ℕ) : Option ℚ := do
  let c ← conns.get? ci
  let n ← nodes.get? c.input_node
  some (n.value * c.weight)

/-- One step of Net::evaluate: sum over the node's entire incoming list
(the source performs no is_enabled check here) and store the activation of
the sum. -/
def evaluateNode (σ τ : ℚ → ℚ) (conns : List Connection) (nodes : List Node)
    (node_index : ℕ) : Option (List Node) := do
  let node ← nodes.get? node_index
  let terms ← node.input_connections.mapM (connTerm nodes conns)
  some (nodes.set node_index
    { node with value := node.activation_function.apply σ τ terms.sum })

/-- Net::evaluate: requires the cached order to be current, then recomputes
every node in node_order_list in order. -/
def Net.evaluate (σ τ : ℚ → ℚ) (net : Net) : Option Net :=
  if net.is_evaluation_order_up_to_date = true then
    (net.node_order_list.foldlM (evaluateNode σ τ net.connections) net.nodes).map
      (fun nodes => { net with nodes := nodes })
  else Option.none

/-- Directions of the snake game, from snake_game/mod.rs. -/
inductive Direction where
  | north
  | east
  | south
  | west
deriving DecidableEq, Repr

/-- f32::MIN, the initial v_max sentinel of interpret_outputs. -/
def f32_min : ℚ := -340282346638528859811704183484516925440

/-- The scan loop of NnPlaysSnake::interpret_outputs: the index of the first
strictly greatest output value. -/
def interpretLoop : List ℚ → ℕ → ℕ → ℚ → ℕ
  | [], _, i_max, _ => i_max
  | v :: rest, i, i_max, v_max =>
    if v_max < v then interpretLoop rest (i + 1) i v
    else interpretLoop rest (i + 1) i_max v_max

/-- NnPlaysSnake::interpret_outputs, from nn_plays_snake/mod.rs: maps the
argmax index through the source's match, whose arm for index 3 is
Direction::East (and whose wildcard arm panics). -/
def interpret_outputs (outputs : List ℚ) : Option Direction :=
  match interpretLoop outputs 0 0 f32_min with
  | 0 => some Direction.north
  | 1 => some Direction.east
  | 2 => some Direction.south
  | 3 => some Direction.east
  | _ => Option.none

/-- Population::choose walk, from populations.rs: the first index whose
running points prefix sum exceeds the scaled random choice; falling off the
end panics. -/
def chooseGo (choice : ℚ) : ℕ → ℚ → List ℚ → Option ℕ
  | _, _, [] => Option.none
  | i, sum, pt :: rest =>
    if choice < sum + pt then some i else chooseGo choice (i + 1) (sum + pt) rest

/-- Population::choose: u is the recorded gen::<f32>() draw. -/
def Population.choose (points_sum : ℚ) (net_points : List ℚ) (u : ℚ) : Option ℕ :=
  chooseGo (u * points_sum) 0 0 net_points

/-- The crossover fill phase of Population::create_next_generation
(lines 118-123): repeatedly draw two parents by Population.choose, with no
rejection of any kind, and record each (a, b) pairing passed to
cross_into_new_net.  draws gives the two gen::<f32>() values of round k. -/
def crossoverPairs (points_sum : ℚ) (net_points : List ℚ) (draws : ℕ → ℚ × ℚ) :
    ℕ → Option (List (ℕ × ℕ))
  | 0 => some []
  | k + 1 => do
    let rest ← crossoverPairs points_sum net_points draws k
    let a ← Population.choose points_sum net_points (draws k).1
    let b ← Population.choose points_sum net_points (draws k).2
    some (rest ++ [(a, b)])

/-- The state threaded through build_evaluation_order_recurse: the order list
so far and the node_has_been_evaluated flags (as a characteristic function of
node positions). -/
abbrev EvalSt : Type := List ℕ × (ℕ → Bool)

/-- Net::build_evaluation_order_recurse: depth-first visit of a node, pushing
it after all of its predecessors through enabled connections.  The source's
upward recursion counter with guard bound 2 * node-count is modelled by fuel
starting at 2 * node-count + 1; exhausting it is the guard panic
(Option.none), as is the source's assert that a listed connection ends at the
visited node.  This is the body of the connection loop of
build_evaluation_order_recurse. -/
def buildEvalStep (net : Net) (visit : EvalSt → ℕ → Option EvalSt) (node_index : ℕ)
    (st1 : EvalSt) (ci : ℕ) : Option EvalSt :=
  match net.connections.get? ci with
  | Option.none => Option.none
  | some c =>
    if node_index = c.output_node then
      if c.is_enabled = true then
        if st1.2 c.input_node = true then some st1
        else visit st1 c.input_node
      else some st1
    else Option.none

/-- Net::build_evaluation_order_recurse: depth-first visit of a node, pushing
it after all of its predecessors through enabled connections (the loop body
is buildEvalStep, recursing with one unit of fuel less). -/
def buildEvalVisit (net : Net) : (fuel : ℕ) → EvalSt → ℕ → Option EvalSt
  | 0, _, _ => Option.none
  | fuel + 1, st, node_index =>
    if st.2 node_index = true then some st
    else
      match net.nodes.get? node_index with
      | Option.none => Option.none
      | some node =>
        (node.input_connections.foldlM
          (buildEvalStep net (fun st1 m => buildEvalVisit net fuel st1 m) node_index) st).map
          (fun (st1 : EvalSt) => (st1.1 ++ [node_index],
            fun k => if k = node_index then true else st1.2 k))

/-- The body of the connection loop of build_layer_order_recurse. -/
def buildLayerStep (net : Net)
    (visit : (ℕ → Option ℕ) → ℕ → Option ((ℕ → Option ℕ) × ℕ)) (node_index : ℕ)
    (acc : (ℕ → Option ℕ) × ℕ) (ci : ℕ) : Option ((ℕ → Option ℕ) × ℕ) :=
  match net.connections.get? ci with
  | Option.none => Option.none
  | some c =>
    if node_index = c.output_node then
      match visit acc.1 c.input_node with
      | Option.none => Option.none
      | some ml => some (ml.1, max acc.2 (1 + ml.2))
    else Option.none

/-- Net::build_layer_order_recurse: memoized longest-distance-from-source
computation over ALL connections (no is_enabled check), with the same fuel
convention as buildEvalVisit; the loop body is buildLayerStep, accumulating
layer = max layer (1 + layer(predecessor)). -/
def buildLayerVisit (net : Net) : (fuel : ℕ) → (ℕ → Option ℕ) → ℕ →
    Option ((ℕ → Option ℕ) × ℕ)
  | 0, _, _ => Option.none
  | fuel + 1, m, node_index =>
    match m node_index with
    | some l => some (m, l)
    | Option.none =>
      match net.nodes.get? node_index with
      | Option.none => Option.none
      | some node =>
        (node.input_connections.foldlM
          (buildLayerStep net (fun m1 k => buildLayerVisit net fuel m1 k) node_index)
          (m, 0)).map
          (fun (acc : (ℕ → Option ℕ) × ℕ) =>
            (fun k => if k = node_index then some acc.2 else acc.1 k, acc.2))

/-- The positions of the Output-layer nodes, in node order. -/
def outputPositions (net : Net) : List ℕ :=
  (List.range net.nodes.length).filter
    (fun k => (net.nodes.get? k).any (fun n => decide (n.layer = Layer.output)))

/-- The initial layer memo of build_evaluation_order: every Input node at
layer 0. -/
def initLayerMap (net : Net) : ℕ → Option ℕ := fun k =>
  match net.nodes.get? k with
  | some n => if n.layer = Layer.input then some 0 else Option.none
  | Option.none => Option.none

/-- The driver loop of Net::build_evaluation_order: visit every Output node
with both recursions. -/
def buildOuts (net : Net) : List ℕ → EvalSt × (ℕ → Option ℕ) →
    Option (EvalSt × (ℕ → Option ℕ))
  | [], acc => some acc
  | k :: rest, acc => do
    let st ← buildEvalVisit net (2 * net.nodes.length + 1) acc.1 k
    let ml ← buildLayerVisit net (2 * net.nodes.length + 1) acc.2 k
    buildOuts net rest (st, ml.1)

/-- nets.rs is_none_or. -/
def is_none_or {α : Type} (val : Option α) (f : α → Bool) : Bool :=
  match val with
  | Option.none => true
  | some v => f v

/-- The layer-copying pass of Net::build_evaluation_order for one node:
Input and Output tags are kept (with the source's asserts), any other node
becomes Hidden at its computed layer, or Unreachable if it was never
reached. -/
def relabelNode (m : ℕ → Option ℕ) (k : ℕ) (n : Node) : Option Node :=
  match n.layer with
  | Layer.input =>
    if is_none_or (m k) (fun l => decide (l = 0)) = true then some n else Option.none
  | Layer.output =>
    if is_none_or (m k) (fun l => decide (0 < l) || decide (n.input_connections = [])) = true
    then some n else Option.none
  | _ =>
    match m k with
    | some l => some { n with layer := Layer.hidden l }
    | Option.none => some { n with layer := Layer.unreachable }

/-- The layer-copying pass over the node list (k is the position of the head
node). -/
def relabelNodes (m : ℕ → Option ℕ) : ℕ → List Node → Option (List Node)
  | _, [] => some []
  | k, n :: rest => do
    let n1 ← relabelNode m k n
    let rest1 ← relabelNodes m (k + 1) rest
    some (n1 :: rest1)

/-- Net::build_evaluation_order: memoized on the up-to-date flag; otherwise
runs both recursions from every Output node, copies the computed layers back
into the nodes, stores the order list and sets the flag. -/
def Net.build_evaluation_order (net : Net) : Option Net :=
  if net.is_evaluation_order_up_to_date = true then some net
  else do
    let acc ← buildOuts net (outputPositions net) (([], fun _ => false), initLayerMap net)
    let nodes1 ← relabelNodes acc.2 0 net.nodes
    let order := Prod.fst acc.1
    some { net with
            nodes := nodes1,
            node_order_list := order,
            is_evaluation_order_up_to_date := true }

/-- Net::verify_invariants as a boolean check.  Checks 1 and 2 of the source
assert coherence of the stored indices and the id-to-index hash maps; in this
positional model their content is id uniqueness.  Checks 3a-3c and the two
layer checks 4 and 5 are as in the source (a failed index lookup corresponds
to a panic, i.e. false). -/
def Net.verify_invariants (net : Net) : Bool :=
  decide (net.nodes.map Node.id).Nodup &&
  decide (net.connections.map Connection.id).Nodup &&
  net.connections.all (fun c =>
    decide (c.input_node < net.nodes.length) && decide (c.output_node < net.nodes.length)) &&
  net.nodes.all (fun n =>
    n.input_connections.all (fun ci => decide (ci < net.connections.length))) &&
  net.nodes.all (fun n => decide n.input_connections.Nodup) &&
  (!net.is_evaluation_order_up_to_date ||
    net.nodes.all (fun n => n.input_connections.all (fun ci =>
      match net.connections.get? ci with
      | some c =>
        match net.nodes.get? c.input_node with
        | some inp => (inp.layer.comes_before n.layer).getD true
        | Option.none => false
      | Option.none => false))) &&
  (!net.is_evaluation_order_up_to_date ||
    net.connections.all (fun c =>
      match net.nodes.get? c.input_node, net.nodes.get? c.output_node with
      | some i, some o => (i.layer.comes_before o.layer).getD true
      | _, _ => false))

/-- The recorded random draws consumed by one Net::mutate_self call, one
field per thread_rng site. -/
structure MutChoices where
  act_draw : ℚ
  act_pick : ℕ
  act_new : ActivationFunction
  weight_draw : ℚ
  weight_pick : ℕ
  weight_u : ℚ
  toggle_draw : ℚ
  toggle_pick : ℕ
  add_conn_draw : ℚ
  add_conn_from_pick : ℕ
  add_conn_to_tries : ℕ → ℕ
  add_conn_u : ℚ
  add_conn_id : ℕ
  add_node_draw : ℚ
  add_node_pick : ℕ
  add_node_id : ℕ
  add_node_conn_id_a : ℕ
  add_node_conn_id_b : ℕ

/-- The node positions whose node satisfies p (used for the layer-filtered
index lists of mutate_self). -/
def filterPositions (net : Net) (p : Node → Bool) : List ℕ :=
  (List.range net.nodes.length).filter (fun k => (net.nodes.get? k).any p)

/-- The activation-swap branch of Net::mutate_self: a uniformly random node,
re-assigned a random activation function unless it is an Input node. -/
def mutActivation (net : Net) (p : MutationParams) (mult : ℚ) (ch : MutChoices)
    (node_index_list : List ℕ) : Option Net :=
  if genBool ch.act_draw (adjust_prob p.prob_mutate_activation_function_of_node mult) = true
      ∧ node_index_list ≠ [] then do
    let k ← chooseIndex node_index_list ch.act_pick
    let node ← net.nodes.get? k
    if node.layer ≠ Layer.input then
      some { net with nodes := (net.nodes.set k { node with activation_function := ch.act_new }) }
    else some net
  else some net

/-- The weight-perturbation branch of Net::mutate_self. -/
def mutWeight (net : Net) (p : MutationParams) (mult : ℚ) (ch : MutChoices)
    (connection_index_list : List ℕ) : Option Net :=
  if genBool ch.weight_draw (adjust_prob p.prob_mutate_weight mult) = true
      ∧ connection_index_list ≠ [] then do
    let k ← chooseIndex connection_index_list ch.weight_pick
    let c ← net.connections.get? k
    some { net with connections := (net.connections.set k
      { c with weight := c.weight + (ch.weight_u * 2 - 1) * p.max_weight_change_magnitude }) }
  else some net

/-- The enabled-toggle branch of Net::mutate_self. -/
def mutToggle (net : Net) (p : MutationParams) (mult : ℚ) (ch : MutChoices)
    (connection_index_list : List ℕ) : Option Net :=
  if genBool ch.toggle_draw (adjust_prob p.prob_toggle_enabled mult) = true
      ∧ connection_index_list ≠ [] then do
    let k ← chooseIndex connection_index_list ch.toggle_pick
    let c ← net.connections.get? k
    some { net with connections := (net.connections.set k { c with is_enabled := !c.is_enabled }) }
  else some net

/-- The add-connection branch of Net::mutate_self: from drawn in
Input ∪ Hidden, to drawn in Hidden ∪ Output distinct from it, swapped when
both are Hidden with from deeper than to; asserts from comes before to or
both share a hidden depth; then adds a fresh enabled connection with a
uniform random weight in (-1, 1). -/
def mutAddConn (net : Net) (p : MutationParams) (mult : ℚ) (ch : MutChoices)
    (input_and_hidden hidden_and_output : List ℕ) : Option Net :=
  if genBool ch.add_conn_draw (adjust_prob p.prob_add_connection mult) = true
      ∧ 1 < input_and_hidden.length then do
    let if0 ← chooseIndex input_and_hidden ch.add_conn_from_pick
    let it0 ← chooseIndexNot hidden_and_output if0 ch.add_conn_to_tries
    let from_node ← net.nodes.get? if0
    let to_node ← net.nodes.get? it0
    let fromTo :=
      match from_node.layer, to_node.layer with
      | Layer.hidden lf, Layer.hidden lt => if lt < lf then (it0, if0) else (if0, it0)
      | _, _ => (if0, it0)
    let fn2 ← net.nodes.get? fromTo.1
    let tn2 ← net.nodes.get? fromTo.2
    let cb ← fn2.layer.comes_before tn2.layer
    if (cb ||
        (match fn2.layer, tn2.layer with
         | Layer.hidden i, Layer.hidden j => decide (i = j)
         | _, _ => false)) = true then
      some (net.add_connection ch.add_conn_id (ch.add_conn_u * 2 - 1) true fromTo.1 fromTo.2)
    else Option.none
  else some net

/-- The body of the add-node branch of Net::mutate_self (nets.rs lines
563-576): disable the chosen connection, add a Hidden node inheriting the
output node's activation function, and add the two bridging enabled
connections (old weight in, the activation function's neutral value out). -/
def Net.addNodeStep (net : Net) (pos : ℕ) (node_id conn_id_a conn_id_b : ℕ) : Option Net := do
  let connection_old ← net.connections.get? pos
  let net1 := { net with
    connections := (net.connections.set pos { connection_old with is_enabled := false }) }
  let weight_connection_new_a := connection_old.weight
  let node_index_input := connection_old.input_node
  let node_index_output := connection_old.output_node
  let node_output ← net1.nodes.get? node_index_output
  let activation_function := node_output.activation_function
  let node_index_new := net1.nodes.length
  let net2 := net1.add_node node_id activation_function (Layer.hidden 1) 0
  let net3 := net2.add_connection conn_id_a weight_connection_new_a true
    node_index_input node_index_new
  some (net3.add_connection conn_id_b activation_function.get_neutral_value true
    node_index_new node_index_output)

/-- The add-node branch of Net::mutate_self: a uniformly random connection
from the index list collected before the add-connection branch. -/
def mutAddNode (net : Net) (p : MutationParams) (mult : ℚ) (ch : MutChoices)
    (connection_index_list : List ℕ) : Option Net :=
  if genBool ch.add_node_draw (adjust_prob p.prob_add_node mult) = true
      ∧ connection_index_list ≠ [] then do
    let pos ← chooseIndex connection_index_list ch.add_node_pick
    net.addNodeStep pos ch.add_node_id ch.add_node_conn_id_a ch.add_node_conn_id_b
  else some net

/-- Net::mutate_self: the five independent mutation rolls in source order
(the index lists are collected exactly where the source collects them, so the
add-node roll draws from the connections as they were before the
add-connection roll), then invalidate the order cache, rebuild it and
re-verify the invariants. -/
def Net.mutate_self (net0 : Net) (p : MutationParams) (mult : ℚ) (ch : MutChoices) :
    Option Net := do
  let node_index_list := List.range net0.nodes.length
  let input_and_hidden := filterPositions net0
    (fun n => decide (n.layer ≠ Layer.output) && decide (n.layer ≠ Layer.unreachable))
  let hidden_and_output := filterPositions net0
    (fun n => decide (n.layer ≠ Layer.input) && decide (n.layer ≠ Layer.unreachable))
  let net1 ← mutActivation net0 p mult ch node_index_list
  let connection_index_list := List.range net1.connections.length
  let net2 ← mutWeight net1 p mult ch connection_index_list
  let net3 ← mutToggle net2 p mult ch connection_index_list
  let net4 ← mutAddConn net3 p mult ch input_and_hidden hidden_and_output
  let net5 ← mutAddNode net4 p mult ch connection_index_list
  let net6 ← Net.build_evaluation_order { net5 with is_evaluation_order_up_to_date := false }
  if net6.verify_invariants = true then some net6 else Option.none

/-- The id-to-node lookup of the source's map_node_id_to_index (first match;
identical while ids are distinct, which verify_invariants asserts). -/
def Net.findNodeById (net : Net) (id : ℕ) : Option Node :=
  net.nodes.find? (fun n => decide (n.id = id))

/-- The id-to-position lookup on nodes. -/
def Net.findNodeIndexById (net : Net) (id : ℕ) : Option ℕ :=
  net.nodes.findIdx? (fun n => decide (n.id = id))

/-- The id-to-connection lookup of map_connection_id_to_index. -/
def Net.findConnById (net : Net) (id : ℕ) : Option Connection :=
  net.connections.find? (fun c => decide (c.id = id))

/-- The recorded random draws consumed by one Net::cross_into_new_net call
(the trailing mutate_self draws included). -/
structure CrossChoices where
  swap_draw : ℚ
  remove_node_draw : ℚ
  remove_node_pick : ℕ
  remove_conn_draw : ℚ
  remove_conn_pick : ℕ
  node_coin : ℕ → ℚ
  conn_coin : ℕ → ℚ
  child_net_id : ℕ
  mutCh : MutChoices

/-- The node-inheritance loop of Net::cross_into_new_net: every winner node
(except the excluded one); matched ids take either parent's copy on a coin
flip, disjoint ids take the winner's copy. -/
def crossNodes (loser : Net) (coin : ℕ → ℚ) (skip : Option ℕ) :
    ℕ → Net → List Node → Net
  | _, child, [] => child
  | i, child, node_winner :: rest =>
    if skip = some node_winner.id then crossNodes loser coin skip (i + 1) child rest
    else
      let node_to_clone :=
        match loser.findNodeById node_winner.id with
        | Option.none => node_winner
        | some node_loser =>
          if genBool (coin i) (mkRat 1 2) = true then node_winner else node_loser
      crossNodes loser coin skip (i + 1)
        (child.add_node node_to_clone.id node_to_clone.activation_function
          node_to_clone.layer node_to_clone.value) rest

/-- The connection-inheritance loop of Net::cross_into_new_net: every winner
connection except the excluded one and those touching the excluded node;
matched ids take either parent's copy on a coin flip; the clone's endpoint
node references are remapped into the child by stable id (a failed remap is
the source's unwrap panic).  Note the clone's own is_enabled value is copied,
exactly as in the source (nets.rs line 397). -/
def crossConns (winner loser : Net) (coin : ℕ → ℚ) (skipConn skipNode : Option ℕ) :
    ℕ → Net → List Connection → Option Net
  | _, child, [] => some child
  | i, child, cw :: rest =>
    if skipConn = some cw.id then
      crossConns winner loser coin skipConn skipNode (i + 1) child rest
    else do
      let win_in ← winner.nodes.get? cw.input_node
      let win_out ← winner.nodes.get? cw.output_node
      if skipNode = some win_in.id ∨ skipNode = some win_out.id then
        crossConns winner loser coin skipConn skipNode (i + 1) child rest
      else
        let cloneOf :=
          match loser.findConnById cw.id with
          | Option.none => (winner, cw)
          | some cl => if genBool (coin i) (mkRat 1 2) = true then (winner, cw) else (loser, cl)
        do
          let in_node ← cloneOf.1.nodes.get? cloneOf.2.input_node
          let out_node ← cloneOf.1.nodes.get? cloneOf.2.output_node
          let ci ← child.findNodeIndexById in_node.id
          let co ← child.findNodeIndexById out_node.id
          crossConns winner loser coin skipConn skipNode (i + 1)
            (child.add_connection cloneOf.2.id cloneOf.2.weight cloneOf.2.is_enabled ci co) rest

/-- The winner/loser ordering of Net::cross_into_new_net (nets.rs 327-340):
the higher-fitness parent wins (self on a tie), then a 20% roll swaps the
roles. -/
def crossPair (self other : Net) (ch : CrossChoices) : Net × Net :=
  let wl0 := if other.fitness_info ≤ self.fitness_info then (self, other) else (other, self)
  if genBool ch.swap_draw (mkRat 1 5) = true then (wl0.2, wl0.1) else wl0

/-- The optionally excluded winner hidden-node id (nets.rs 342-350). -/
def crossSkipNode (self other : Net) (p : MutationParams) (mult : ℚ)
    (ch : CrossChoices) : Option ℕ :=
  if genBool ch.remove_node_draw (adjust_prob p.prob_remove_node mult) = true then
    chooseIndex (((crossPair self other ch).1.nodes.filter (fun n =>
      match n.layer with
      | Layer.hidden _ => true
      | _ => false)).map Node.id) ch.remove_node_pick
  else Option.none

/-- The optionally excluded winner connection id (nets.rs 352-357). -/
def crossSkipConn (self other : Net) (p : MutationParams) (mult : ℚ)
    (ch : CrossChoices) : Option ℕ :=
  if genBool ch.remove_conn_draw (adjust_prob p.prob_remove_connection mult) = true then
    chooseIndex ((crossPair self other ch).1.connections.map Connection.id)
      ch.remove_conn_pick
  else Option.none

/-- The body of Net::cross_into_new_net after the winner/loser and exclusion
draws: inherit nodes then connections into a fresh child, rebuild the child's
evaluation order, verify invariants, and finally mutate the child. -/
def crossRest (winner loser : Net) (p : MutationParams) (mult : ℚ)
    (coinN coinC : ℕ → ℚ) (skN skC : Option ℕ) (cid : ℕ) (mch : MutChoices) :
    Option Net := do
  let child0 : Net := ⟨cid, winner.input_count, winner.output_count, [], [], 0, false, []⟩
  let child1 := crossNodes loser coinN skN 0 child0 winner.nodes
  let child2 ← crossConns winner loser coinC skC skN 0 child1 winner.connections
  let child3 ← child2.build_evaluation_order
  if child3.verify_invariants = true then child3.mutate_self p mult mch
  else Option.none

/-- Net::cross_into_new_net: pick winner/loser by fitness with a 20% role
swap, optionally exclude one winner hidden-node id and one winner connection
id, inherit nodes then connections, rebuild the child's evaluation order,
verify invariants, and finally mutate the child. -/
def Net.cross_into_new_net (self other : Net) (p : MutationParams) (mult : ℚ)
    (ch : CrossChoices) : Option Net :=
  crossRest (crossPair self other ch).1 (crossPair self other ch).2 p mult
    ch.node_coin ch.conn_coin (crossSkipNode self other p mult ch)
    (crossSkipConn self other p mult ch) ch.child_net_id ch.mutCh

/-- The node appended to the child for one inherited winner node (the body of
one crossNodes step): the coin picks the winner's or the matched loser's
copy, and add_node starts it with an empty incoming list. -/
def cloneNodeOf (loser : Net) (coin : ℕ → ℚ) (i : ℕ) (w : Node) : Node :=
  let ntc :=
    match loser.findNodeById w.id with
    | Option.none => w
    | some nl => if genBool (coin i) (mkRat 1 2) = true then w else nl
  ⟨ntc.id, ntc.activation_function, ntc.layer, [], ntc.value⟩

/-- The list of nodes crossNodes appends to the child. -/
def cloneSeq (loser : Net) (coin : ℕ → ℚ) (skip : Option ℕ) : ℕ → List Node → List Node
  | _, [] => []
  | i, w :: rest =>
    if skip = some w.id then cloneSeq loser coin skip (i + 1) rest
    else cloneNodeOf loser coin i w :: cloneSeq loser coin skip (i + 1) rest

/-- Coarse layer class: 0 for Input, 1 for Output, 2 for Hidden/Unreachable. -/
def layerClass : Layer → ℕ
  | Layer.input => 0
  | Layer.output => 1
  | _ => 2

/-- Node ids are pairwise distinct (the source's map_node_id_to_index is
injective; asserted by verify_invariants check 1). -/
def Net.idsNodupB (net : Net) : Bool :=
  decide (net.nodes.map Node.id).Nodup

/-- Every node of a that has an id-mate in b agrees with it on the coarse
layer class (Input / Output / interior). -/
def Net.classMatchB (a b : Net) : Bool :=
  a.nodes.all (fun w =>
    match b.findNodeById w.id with
    | some nl => decide (layerClass nl.layer = layerClass w.layer)
    | Option.none => true)

/-! ## Concrete scenarios used by the claim theorems -/

/-- Mutation parameters with every probability zero (the style of the
source's own tests), so the trailing mutate_self of a crossover performs no
mutation. -/
def zeroMutParams : MutationParams := ⟨0, 0, 0, 0, 0, 0, 0, 0⟩

/-- An arbitrary fixed mutate_self choice record (all rolls fail against zero
probabilities). -/
def mutChoices0 : MutChoices :=
  ⟨0, 0, ActivationFunction.none, 0, 0, 0, 0, 0, 0, 0, (fun _ => 0), 0, 0, 0, 0, 0, 0, 0⟩

/-- C1 scenario, higher-fitness parent: one input, one output, one enabled
connection (id 10, weight 0.2). -/
def winnerC1 : Net :=
  ⟨1, 1, 1,
   [⟨1, ActivationFunction.none, Layer.input, [], 0⟩,
    ⟨2, ActivationFunction.sigmoid, Layer.output, [0], 0⟩],
   [⟨10, 0, 1, mkRat 1 5, true⟩], 1, false, []⟩

/-- C1 scenario, lower-fitness parent: same gene ids, but connection 10 is
disabled and has weight 0.8. -/
def loserC1 : Net :=
  ⟨2, 1, 1,
   [⟨1, ActivationFunction.none, Layer.input, [], 0⟩,
    ⟨2, ActivationFunction.sigmoid, Layer.output, [0], 0⟩],
   [⟨10, 0, 1, mkRat 4 5, false⟩], 0, false, []⟩

/-- C1 scenario draws: no winner/loser role swap (draw 1/2 against
probability 0.2), no removals (probabilities are zero), and connection coin
draw 1/2, which fails the gen_bool(0.5) roll, so the trial samples the
loser's copy of connection 10. -/
def crossChoicesC1 : CrossChoices :=
  ⟨mkRat 1 2, 0, 0, 0, 0, (fun _ => 0), (fun _ => mkRat 1 2), 3, mutChoices0⟩

/-- C2 scenario: one input feeding one identity-activation output through a
single DISABLED connection of weight 1; the order cache is not yet built. -/
def netC2 : Net :=
  ⟨0, 1, 1,
   [⟨1, ActivationFunction.none, Layer.input, [], 0⟩,
    ⟨2, ActivationFunction.none, Layer.output, [0], 0⟩],
   [⟨10, 0, 1, 1, false⟩], 0, false, []⟩

/-- The full use pipeline of a genome: build the evaluation order, set the
inputs, evaluate, read the outputs. -/
def runPipeline (net : Net) (inputs : List ℚ) (σ τ : ℚ → ℚ) : Option (List ℚ) := do
  let n1 ← net.build_evaluation_order
  let n2 ← n1.set_inputs inputs
  let n3 ← n2.evaluate σ τ
  n3.get_outputs

/-- C3 scenario: Net::new(2, 1) — two identity inputs, one Sigmoid output —
plus a single enabled connection of weight 1.0 from input 0 to the output. -/
def netC3 : Net := (Net.new 0 2 1 (fun k => k + 1)).add_connection 10 1 true 0 2

/-! ## List helper lemmas -/

/-- A successful positional lookup is in range. -/
theorem get?_lt_len {α : Type} {l : List α} {i : ℕ} {a : α}
    (h : l.get? i = some a) : i < l.length := by
  by_contra hlt
  push_neg at hlt
  rw [List.get?_eq_none.mpr hlt] at h
  cases h

/-- Setting the freshly appended last element. -/
theorem set_concat_length {α : Type} (l : List α) (a b : α) :
    (l ++ [a]).set l.length b = l ++ [b] := by
  induction l with
  | nil => rfl
  | cons x xs ih => simp [List.set, ih]

/-- Setting inside the left part of an append. -/
theorem set_append_left {α : Type} (l r : List α) (i : ℕ) (b : α) (h : i < l.length) :
    (l ++ r).set i b = l.set i b ++ r := by
  induction l generalizing i with
  | nil => simp at h
  | cons x xs ih =>
    cases i with
    | zero => rfl
    | succ j =>
      simp only [List.cons_append, List.set]
      rw [List.append_eq, ih j (by simpa using h)]

/-! ## Claim theorems -/

/-- C1: the claim states that for every connection-gene id present in both
parents the child's enabled flag always equals the winner's, whichever
parent's weight was sampled.  The code (nets.rs line 397) instead copies
is_enabled from whichever parent's copy was sampled, contradicting its own
comment ("BUT always set the is_enabled to the value from the winner").  In
this trial the winner (strictly higher fitness, no role swap) has connection
10 enabled, the loser has it disabled, the coin picks the loser's copy, and
the child inherits the loser's weight 0.8 AND the loser's disabled flag. -/
theorem crossover_enabled_flag_follows_sampled_parent :
    (winnerC1.cross_into_new_net loserC1 zeroMutParams 1 crossChoicesC1).map
        (fun child => child.connections.map (fun c => (c.id, c.weight, c.is_enabled)))
      = some [(10, mkRat 4 5, false)]
    ∧ winnerC1.connections.map (fun c => (c.id, c.is_enabled)) = [(10, true)]
    ∧ loserC1.connections.map (fun c => (c.id, c.is_enabled)) = [(10, false)]
    ∧ loserC1.fitness_info < winnerC1.fitness_info
    ∧ genBool crossChoicesC1.swap_draw (mkRat 1 5) = false := by
  exact ⟨by decide, by decide, by decide, by decide, by decide⟩

/-- C2: the claim states that a node's new value is the activation of the sum
over its ENABLED incoming connections only.  Net::evaluate (nets.rs lines
301-312) sums over the whole incoming list with no is_enabled check (the
check was moved into build_evaluation_order_recurse only, see the comment at
line 265), so the single disabled connection of weight 1 from the input
(value 5) contributes 5 to the output node's activation argument: the iden-
tity output reads 5, where the claim requires activation(0) = 0.  The σ/τ
parameters are irrelevant here (no sigmoid or tanh node is evaluated). -/
theorem evaluate_includes_disabled_connections :
    runPipeline netC2 [5] (fun q => q) (fun q => q) = some [5]
    ∧ netC2.connections.map Connection.is_enabled = [false]
    ∧ (5 : ℚ) ≠ 0 := by
  exact ⟨by decide, by decide, by decide⟩

/-- The C3 genome as build_evaluation_order returns it: the cached order is
[input 0, output 2] and the flag is set. -/
def netC3built : Net :=
  ⟨0, 2, 1,
   [⟨1, ActivationFunction.none, Layer.input, [], 0⟩,
    ⟨2, ActivationFunction.none, Layer.input, [], 0⟩,
    ⟨3, ActivationFunction.sigmoid, Layer.output, [0], 0⟩],
   [⟨10, 0, 2, 1, true⟩], 0, true, [0, 2]⟩

/-- C3: the claim expects get_outputs() = [sigmoid(1.0)] ≈ [0.7311] for the
2-input/1-Sigmoid-output genome with one enabled weight-1 connection after
set_inputs([1.0, 0.0]).  But build_evaluation_order places the INPUT node
into node_order_list (position 0 precedes the output, position 2), and
Net::evaluate recomputes every listed node as activation(sum of incoming):
the input node has no incoming connections, so its caller-set value 1.0 is
overwritten with identity(0) = 0 before the output reads it, and the output
becomes sigmoid(0) = 0.5, for EVERY sigmoid function σ and every input
value v. -/
theorem evaluate_zeroes_input_values (σ τ : ℚ → ℚ) (v : ℚ) :
    runPipeline netC3 [v, 0] σ τ = some [σ 0]
    ∧ (netC3.build_evaluation_order).map Net.node_order_list = some [0, 2] := by
  have h1 : netC3.build_evaluation_order = some netC3built := by decide
  constructor
  · simp [runPipeline, h1, Net.set_inputs, setInputsLoop, netC3built, Net.evaluate,
      evaluateNode, connTerm, Net.get_outputs, ActivationFunction.apply, List.foldlM,
      List.mapM, List.mapM.loop]
  · rw [h1]
    decide

/-- C4: the claim maps argmax index 3 to West.  interpret_outputs
(nn_plays_snake/mod.rs) maps index 3 to Direction::East — the asymmetric
fallback the spec's design notes flag as a copy-paste defect.  On the output
vector [0,0,0,1] the strict argmax is 3 and the code yields East, not West;
the other three indices behave as claimed. -/
theorem interpret_outputs_maps_index_three_to_east :
    interpret_outputs [0, 0, 0, 1] = some Direction.east
    ∧ Direction.east ≠ Direction.west
    ∧ interpret_outputs [1, 0, 0, 0] = some Direction.north
    ∧ interpret_outputs [0, 1, 0, 0] = some Direction.east
    ∧ interpret_outputs [0, 0, 1, 0] = some Direction.south := by
  exact ⟨by decide, by decide, by decide, by decide, by decide⟩

/-- C8 counterexample: the fill loop of Population::create_next_generation
(populations.rs lines 118-123) draws the two parents with NO self-pair
rejection: with two equally scored genomes and both gen::<f32>() draws 0, the
single crossover round passes the SAME genome (index 0) as both parents,
refuting "the two parents passed to crossover are never the same genome". -/
theorem crossover_fill_produces_self_pair :
    crossoverPairs 200 [100, 100] (fun _ => (0, 0)) 1 = some [(0, 0)] := by
  decide

/-- C8 amended: the fill loop draws the two parents independently with
Population.choose and rejects nothing, so any round whose two draws coincide
passes the same genome as both parents. -/
theorem crossover_fill_no_selfpair_rejection (ps : ℚ) (pts : List ℚ)
    (draws : ℕ → ℚ × ℚ) (k : ℕ) (l : List (ℕ × ℕ))
    (hdraws : ∀ j, (draws j).1 = (draws j).2)
    (h : crossoverPairs ps pts draws k = some l) :
    ∀ ab ∈ l, ab.1 = ab.2 := by
  induction k generalizing l with
  | zero =>
    simp only [crossoverPairs] at h
    cases h
    intro ab hab
    cases hab
  | succ k ih =>
    simp only [crossoverPairs, Option.bind_eq_bind, Option.bind_eq_some] at h
    obtain ⟨rest, hrest, a, ha, b, hb, hl⟩ := h
    cases hl
    intro ab hab
    rcases List.mem_append.mp hab with hab | hab
    · exact ih rest hrest ab hab
    · rcases List.mem_singleton.mp hab with rfl
      have : a = b := by rw [← hdraws k] at hb; rw [ha] at hb; cases hb; rfl
      simpa using this

/-- C8 amended, witness at the concrete counterexample input: one fill round
with points [100, 100] and both draws 0 yields exactly the pair (0, 0), and
the theorem applies to it. -/
theorem crossover_fill_no_selfpair_rejection_witness :
    crossoverPairs 200 [100, 100] (fun _ => (0, 0)) 1 = some [(0, 0)] ∧
    ((0 : ℕ), (0 : ℕ)).1 = ((0 : ℕ), (0 : ℕ)).2 :=
  ⟨by decide,
   crossover_fill_no_selfpair_rejection 200 [100, 100] (fun _ => (0, 0)) 1
     [(0, 0)] (fun _ => rfl) (by decide) ((0 : ℕ), (0 : ℕ)) (by decide)⟩

/-- C7: the add-node mutation (the body of the prob_add_node branch of
Net::mutate_self, invoked by mutAddNode on the uniformly chosen connection
position): the chosen connection is disabled in place; exactly one new node
is appended, Hidden, inheriting the chosen connection's OUTPUT node's
activation function; exactly two new connections are appended, both enabled:
old.input → new with the old connection's weight, and new → old.output with
the new node's activation function's neutral value (1 for Identity/ReLU/
LeakyReLU, 4 for Sigmoid, 2.37 for Tanh). -/
theorem add_node_mutation_splits_connection (net : Net) (pos : ℕ)
    (node_id cidA cidB : ℕ) (c : Connection) (out_node : Node)
    (hc : net.connections.get? pos = some c)
    (hout : net.nodes.get? c.output_node = some out_node) :
    ∃ net2, net.addNodeStep pos node_id cidA cidB = some net2
    ∧ net2.connections.get? pos = some { c with is_enabled := false }
    ∧ net2.nodes.length = net.nodes.length + 1
    ∧ net2.nodes.get? net.nodes.length = some
        ⟨node_id, out_node.activation_function, Layer.hidden 1, [net.connections.length], 0⟩
    ∧ net2.connections.length = net.connections.length + 2
    ∧ net2.connections.get? net.connections.length = some
        ⟨cidA, c.input_node, net.nodes.length, c.weight, true⟩
    ∧ net2.connections.get? (net.connections.length + 1) = some
        ⟨cidB, net.nodes.length, c.output_node,
          out_node.activation_function.get_neutral_value, true⟩
    ∧ net2.nodes.get? c.output_node = some
        { out_node with input_connections :=
            out_node.input_connections ++ [net.connections.length + 1] }
    ∧ ActivationFunction.get_neutral_value ActivationFunction.none = 1
    ∧ ActivationFunction.get_neutral_value ActivationFunction.relu = 1
    ∧ ActivationFunction.get_neutral_value ActivationFunction.lrelu = 1
    ∧ ActivationFunction.get_neutral_value ActivationFunction.sigmoid = 4
    ∧ ActivationFunction.get_neutral_value ActivationFunction.tanh = mkRat 237 100 := by
  have hposlt : pos < net.connections.length := get?_lt_len hc
  have houtlt : c.output_node < net.nodes.length := get?_lt_len hout
  have houtlt2 : c.output_node ≠ net.nodes.length := Nat.ne_of_lt houtlt
  refine ⟨{ net with
      connections := (net.connections.set pos { c with is_enabled := false })
        ++ [⟨cidA, c.input_node, net.nodes.length, c.weight, true⟩]
        ++ [⟨cidB, net.nodes.length, c.output_node,
              out_node.activation_function.get_neutral_value, true⟩],
      nodes := (net.nodes.set c.output_node
          { out_node with input_connections :=
              out_node.input_connections ++ [net.connections.length + 1] })
        ++ [⟨node_id, out_node.activation_function, Layer.hidden 1,
              [net.connections.length], 0⟩] }, ?_, ?_, ?_, ?_, ?_, ?_, ?_, ?_,
    rfl, rfl, rfl, rfl, rfl⟩
  · simp only [Net.addNodeStep, hc, hout, Option.bind_eq_bind, Option.some_bind,
      Net.add_node, Net.add_connection, pushIncoming, List.get?_concat_length,
      List.length_set, set_concat_length, List.length_append, List.nil_append]
    rw [List.get?_append houtlt, hout]
    simp [set_append_left _ _ _ _ houtlt]
  · rw [List.append_assoc, List.get?_append (by simpa using hposlt), List.get?_set_eq, hc]
    rfl
  · simp
  · rw [List.get?_append_right (by simp)]
    simp
  · simp
  · rw [List.append_assoc, List.get?_append_right (by simp), List.length_set]
    simp
  · rw [List.get?_append_right (by simp [Nat.le_of_lt hposlt])]
    simp
  · rw [List.get?_append (by simpa using houtlt), List.get?_set_eq, hout]
    rfl

/-- C7 witness: the add-node step on a concrete one-connection genome. -/
theorem add_node_mutation_splits_connection_witness :
    ∃ net2, netC2.addNodeStep 0 5 6 7 = some net2
    ∧ net2.connections.get? 0 = some ⟨10, 0, 1, 1, false⟩
    ∧ net2.nodes.length = 2 + 1
    ∧ net2.nodes.get? 2 = some ⟨5, ActivationFunction.none, Layer.hidden 1, [1], 0⟩
    ∧ net2.connections.length = 1 + 2
    ∧ net2.connections.get? 1 = some ⟨6, 0, 2, 1, true⟩
    ∧ net2.connections.get? (1 + 1) = some
        ⟨7, 2, 1, (ActivationFunction.none).get_neutral_value, true⟩
    ∧ net2.nodes.get? 1 = some ⟨2, ActivationFunction.none, Layer.output, [0] ++ [1 + 1], 0⟩
    ∧ ActivationFunction.get_neutral_value ActivationFunction.none = 1
    ∧ ActivationFunction.get_neutral_value ActivationFunction.relu = 1
    ∧ ActivationFunction.get_neutral_value ActivationFunction.lrelu = 1
    ∧ ActivationFunction.get_neutral_value ActivationFunction.sigmoid = 4
    ∧ ActivationFunction.get_neutral_value ActivationFunction.tanh = mkRat 237 100 :=
  add_node_mutation_splits_connection netC2 0 5 6 7 ⟨10, 0, 1, 1, false⟩
    ⟨2, ActivationFunction.none, Layer.output, [0], 0⟩ (by decide) (by decide)

/-! ## Topological validity of the evaluation order (C6) -/

/-- Structural well-formedness used by the order/layer theorems: every
connection is registered in its output node's incoming list (the converse of
the source's per-visit assert; maintained by add_connection). -/
def Net.connCover (net : Net) : Bool :=
  (List.range net.connections.length).all (fun ci =>
    ((net.connections.get? ci).bind (fun c =>
      (net.nodes.get? c.output_node).map (fun n =>
        decide (ci ∈ n.input_connections)))).getD true)

/-- Extraction of Net.connCover at one connection position. -/
theorem connCover_spec {net : Net} (h : net.connCover = true) {ci : ℕ} {c : Connection}
    (hc : net.connections.get? ci = some c) {n : Node}
    (hn : net.nodes.get? c.output_node = some n) : ci ∈ n.input_connections := by
  have hci : ci ∈ List.range net.connections.length :=
    List.mem_range.mpr (get?_lt_len hc)
  have := List.all_eq_true.mp h ci hci
  rw [hc] at this
  simp only [Option.some_bind] at this
  rw [hn] at this
  simpa using this

/-- The visited flags agree with membership in the order list. -/
def OrderSync (st : EvalSt) : Prop :=
  ∀ k, st.2 k = true ↔ k ∈ st.1

/-- The order list is topologically sorted: ahead of every occurrence of an
enabled connection's output node there is an occurrence of its input node. -/
def TopoOrd (net : Net) (order : List ℕ) : Prop :=
  ∀ ci c, net.connections.get? ci = some c → c.is_enabled = true →
    ∀ j, order.get? j = some c.output_node →
      ∃ i, i < j ∧ order.get? i = some c.input_node

/-- The per-connection step of buildEvalVisit preserves the invariants; the
fold lemma below consumes exactly this shape. -/
theorem evalFold_inv (net : Net) (g : EvalSt → ℕ → Option EvalSt)
    (hg : ∀ st ci st', g st ci = some st' → OrderSync st → TopoOrd net st.1 →
      OrderSync st' ∧ TopoOrd net st'.1 ∧ (∀ k, st.2 k = true → st'.2 k = true)
      ∧ (∀ c, net.connections.get? ci = some c → c.is_enabled = true →
          st'.2 c.input_node = true)) :
    ∀ (l : List ℕ) (st st' : EvalSt), l.foldlM g st = some st' → OrderSync st → TopoOrd net st.1 →
      OrderSync st' ∧ TopoOrd net st'.1 ∧ (∀ k, st.2 k = true → st'.2 k = true)
      ∧ (∀ ci ∈ l, ∀ c, net.connections.get? ci = some c → c.is_enabled = true →
          st'.2 c.input_node = true) := by
  intro l
  induction l with
  | nil =>
    intro st st' h hs ht
    simp only [List.foldlM_nil, Option.pure_def, Option.some.injEq] at h
    subst h
    exact ⟨hs, ht, fun _ h => h, fun ci hci => absurd hci (List.not_mem_nil ci)⟩
  | cons x xs ih =>
    intro st st' h hs ht
    rw [List.foldlM_cons] at h
    rcases hx : g st x with _ | st1
    · rw [hx] at h; cases h
    · rw [hx] at h
      simp only [Option.bind_eq_bind, Option.some_bind] at h
      obtain ⟨hs1, ht1, hm1, hv1⟩ := hg st x st1 hx hs ht
      obtain ⟨hs2, ht2, hm2, hv2⟩ := ih st1 st' h hs1 ht1
      refine ⟨hs2, ht2, fun k hk => hm2 k (hm1 k hk), ?_⟩
      intro ci hci c hc hen
      rcases List.mem_cons.mp hci with rfl | hci
      · exact hm2 _ (hv1 c hc hen)
      · exact hv2 ci hci c hc hen

/-- Main invariant of build_evaluation_order_recurse: on success the visited
flags stay synchronised with the order list, the order list stays
topologically sorted, visited flags grow monotonically, and the visited node
ends up flagged. -/
theorem buildEvalVisit_inv (net : Net) (hcov : net.connCover = true) :
    ∀ fuel st n st', buildEvalVisit net fuel st n = some st' →
      OrderSync st → TopoOrd net st.1 →
      OrderSync st' ∧ TopoOrd net st'.1 ∧ (∀ k, st.2 k = true → st'.2 k = true)
        ∧ st'.2 n = true := by
  intro fuel
  induction fuel with
  | zero => intro st n st' h; cases h
  | succ fuel ih =>
    intro st n st' h hs ht
    rw [buildEvalVisit] at h
    by_cases hv : st.2 n = true
    · rw [if_pos hv] at h
      cases h
      exact ⟨hs, ht, fun _ h => h, hv⟩
    · rw [if_neg hv] at h
      rcases hn : net.nodes.get? n with _ | node
      · rw [hn] at h; cases h
      · rw [hn] at h
        rw [Option.map_eq_some'] at h
        obtain ⟨st1, hf, hmap⟩ := h
        have hg : ∀ st ci st',
            buildEvalStep net (fun st1 m => buildEvalVisit net fuel st1 m) n st ci = some st' →
            OrderSync st → TopoOrd net st.1 →
            OrderSync st' ∧ TopoOrd net st'.1 ∧ (∀ k, st.2 k = true → st'.2 k = true)
            ∧ (∀ c, net.connections.get? ci = some c → c.is_enabled = true →
                st'.2 c.input_node = true) := by
          intro st ci st' hstep hs0 ht0
          rw [buildEvalStep] at hstep
          rcases hcget : net.connections.get? ci with _ | c
          · rw [hcget] at hstep; cases hstep
          · rw [hcget] at hstep
            simp only at hstep
            by_cases hon : n = c.output_node
            · rw [if_pos hon] at hstep
              by_cases hen : c.is_enabled = true
              · rw [if_pos hen] at hstep
                by_cases hvis : st.2 c.input_node = true
                · rw [if_pos hvis] at hstep
                  cases hstep
                  refine ⟨hs0, ht0, fun _ h => h, ?_⟩
                  intro c2 hc2 _
                  injection hc2 with hcc
                  subst hcc
                  exact hvis
                · rw [if_neg hvis] at hstep
                  obtain ⟨hs1, ht1, hm1, hv1⟩ := ih st c.input_node st' hstep hs0 ht0
                  refine ⟨hs1, ht1, hm1, ?_⟩
                  intro c2 hc2 _
                  injection hc2 with hcc
                  subst hcc
                  exact hv1
              · rw [if_neg hen] at hstep
                cases hstep
                refine ⟨hs0, ht0, fun _ h => h, ?_⟩
                intro c2 hc2 hen2
                injection hc2 with hcc
                subst hcc
                exact absurd hen2 hen
            · rw [if_neg hon] at hstep
              cases hstep
        obtain ⟨hs1, ht1, hm1, hv1⟩ :=
          evalFold_inv net _ hg node.input_connections st st1 hf hs ht
        subst hmap
        refine ⟨?_, ?_, ?_, by simp⟩
        · intro k
          constructor
          · intro hk
            by_cases hkn : k = n
            · subst hkn
              exact List.mem_append_right _ (List.mem_singleton.mpr rfl)
            · simp only [if_neg hkn] at hk
              exact List.mem_append_left _ ((hs1 k).mp hk)
          · intro hk
            rcases List.mem_append.mp hk with hk | hk
            · by_cases hkn : k = n
              · simp [hkn]
              · simpa [hkn] using (hs1 k).mpr hk
            · rcases List.mem_singleton.mp hk with rfl
              simp
        · intro ci c hc hen j hj
          rcases Nat.lt_trichotomy j st1.1.length with hlt | heq | hgt
          · rw [List.get?_append hlt] at hj
            obtain ⟨i, hij, hi⟩ := ht1 ci c hc hen j hj
            exact ⟨i, hij, by rw [List.get?_append (lt_trans hij hlt)]; exact hi⟩
          · subst heq
            rw [List.get?_concat_length] at hj
            have houtn : c.output_node = n := by
              have := hj
              simp only [Option.some.injEq] at this
              exact this.symm
            have hback : net.nodes.get? c.output_node = some node := by
              rw [houtn]; exact hn
            have hmem : ci ∈ node.input_connections := connCover_spec hcov hc hback
            have hvin : st1.2 c.input_node = true := hv1 ci hmem c hc hen
            have hmemo : c.input_node ∈ st1.1 := (hs1 _).mp hvin
            obtain ⟨i, hi⟩ := List.get?_of_mem hmemo
            have hilt : i < st1.1.length := get?_lt_len hi
            exact ⟨i, hilt, by rw [List.get?_append hilt]; exact hi⟩
          · have hnone : (st1.1 ++ [n]).get? j = Option.none := by
              rw [List.get?_eq_none]
              simpa using hgt
            rw [hnone] at hj
            cases hj
        · intro k hk
          by_cases hkn : k = n
          · simp [hkn]
          · simp only [if_neg hkn]
            exact hm1 k hk

/-- The driver loop over the Output nodes preserves the order invariants. -/
theorem buildOuts_inv (net : Net) (hcov : net.connCover = true) :
    ∀ (outs : List ℕ) (st : EvalSt) (m : ℕ → Option ℕ) (acc' : EvalSt × (ℕ → Option ℕ)),
      buildOuts net outs (st, m) = some acc' →
      OrderSync st → TopoOrd net st.1 →
      OrderSync acc'.1 ∧ TopoOrd net (Prod.fst acc'.1) := by
  intro outs
  induction outs with
  | nil =>
    intro st m acc' h hs ht
    simp only [buildOuts, Option.some.injEq] at h
    subst h
    exact ⟨hs, ht⟩
  | cons k rest ih =>
    intro st m acc' h hs ht
    simp only [buildOuts, Option.bind_eq_bind, Option.bind_eq_some] at h
    obtain ⟨st1, hst1, ml, hml, hrest⟩ := h
    obtain ⟨hs1, ht1, -, -⟩ := buildEvalVisit_inv net hcov _ st k st1 hst1 hs ht
    exact ih st1 ml.1 acc' hrest hs1 ht1

/-- The first occurrence index of a found element. -/
theorem get?_indexOf {α : Type} [DecidableEq α] {a : α} :
    ∀ {l : List α}, a ∈ l → l.get? (l.indexOf a) = some a := by
  intro l
  induction l with
  | nil => intro h; cases h
  | cons x xs ih =>
    intro h
    by_cases hxa : x = a
    · subst hxa
      simp [List.indexOf_cons_self]
    · have hmem : a ∈ xs := by
        rcases List.mem_cons.mp h with rfl | h
        · exact absurd rfl hxa
        · exact h
      rw [List.indexOf_cons_ne _ (by simpa using hxa)]
      simpa using ih hmem

/-- indexOf is minimal over all occurrence positions. -/
theorem indexOf_le_of_get? {α : Type} [DecidableEq α] {a : α} :
    ∀ {l : List α} {i : ℕ}, l.get? i = some a → l.indexOf a ≤ i := by
  intro l
  induction l with
  | nil => intro i h; cases h
  | cons x xs ih =>
    intro i h
    by_cases hxa : x = a
    · subst hxa
      simp [List.indexOf_cons_self]
    · cases i with
      | zero =>
        simp only [List.get?] at h
        injection h with h
        exact absurd h hxa
      | succ j =>
        simp only [List.get?] at h
        rw [List.indexOf_cons_ne _ (by simpa using hxa)]
        exact Nat.succ_le_succ (ih h)

/-- C6: for every genome whose cached evaluation order has just been built
(a genome whose connections are all registered in their output nodes'
incoming lists, per Net.connCover), every ENABLED connection (u → v) has u
before v in node_order_list: ahead of every occurrence of v there is an
occurrence of u, and in particular when v appears at all, u appears too and
its first occurrence strictly precedes the first occurrence of v. -/
theorem enabled_connection_precedes_in_order (net net' : Net)
    (hflag : net.is_evaluation_order_up_to_date = false)
    (hcov : net.connCover = true)
    (h : net.build_evaluation_order = some net') :
    ∀ c ∈ net'.connections, c.is_enabled = true →
      (∀ j, net'.node_order_list.get? j = some c.output_node →
        ∃ i, i < j ∧ net'.node_order_list.get? i = some c.input_node)
      ∧ (c.output_node ∈ net'.node_order_list →
          c.input_node ∈ net'.node_order_list ∧
          net'.node_order_list.indexOf c.input_node
            < net'.node_order_list.indexOf c.output_node) := by
  rw [Net.build_evaluation_order, if_neg (by simp [hflag])] at h
  simp only [Option.bind_eq_bind, Option.bind_eq_some] at h
  obtain ⟨acc, hacc, nodes1, hnodes1, hout⟩ := h
  injection hout with hout2
  subst hout2
  have hsync0 : OrderSync ([], fun _ => false) := by
    intro k
    constructor
    · intro hk; cases hk
    · intro hk; cases hk
  have htopo0 : TopoOrd net [] := by
    intro ci c hc hen j hj
    cases hj
  obtain ⟨-, htopo⟩ :=
    buildOuts_inv net hcov (outputPositions net) ([], fun _ => false)
      (initLayerMap net) acc hacc hsync0 htopo0
  intro c hc hen
  dsimp only at hc ⊢
  obtain ⟨ci, hci⟩ := List.get?_of_mem hc
  have hocc : ∀ j, (Prod.fst acc.1).get? j = some c.output_node →
      ∃ i, i < j ∧ (Prod.fst acc.1).get? i = some c.input_node := by
    intro j hj
    exact htopo ci c hci hen j hj
  refine ⟨hocc, ?_⟩
  intro hmem
  obtain ⟨i, hij, hi⟩ := hocc _ (get?_indexOf hmem)
  exact ⟨List.get?_mem hi, lt_of_le_of_lt (indexOf_le_of_get? hi) hij⟩

/-- C6 witness: the freshly built C3 genome; its one enabled connection
0 → 2 has its input node appearing at position 0 and its output node at
position 1 of the cached order list [0, 2]. -/
theorem enabled_connection_precedes_in_order_witness :
    (0 : ℕ) ∈ netC3built.node_order_list ∧
    netC3built.node_order_list.indexOf 0 < netC3built.node_order_list.indexOf 2 :=
  (enabled_connection_precedes_in_order netC3 netC3built (by decide) (by decide)
    (by decide) ⟨10, 0, 2, 1, true⟩ (by decide) (by decide)).2 (by decide)

/-! ## Layering validity (C5) -/

/-- A feed-forward ranking certificate: every connection registered in a
node's incoming list comes from a strictly lower-ranked node.  The system's
mutation/crossover contracts keep genomes acyclic, which such a rank
witnesses. -/
def RankOk (net : Net) (rank : ℕ → ℕ) : Prop :=
  ∀ k nk, net.nodes.get? k = some nk → ∀ ci ∈ nk.input_connections,
    ∀ c, net.connections.get? ci = some c → rank c.input_node < rank k

/-- Decidable form of RankOk over the node positions. -/
def Net.rankOkB (net : Net) (rank : ℕ → ℕ) : Bool :=
  (List.range net.nodes.length).all (fun k =>
    match net.nodes.get? k with
    | some nk => nk.input_connections.all (fun ci =>
        match net.connections.get? ci with
        | some c => decide (rank c.input_node < rank k)
        | Option.none => true)
    | Option.none => true)

/-- rankOkB implies RankOk. -/
theorem rankOk_of_b {net : Net} {rank : ℕ → ℕ} (h : net.rankOkB rank = true) :
    RankOk net rank := by
  intro k nk hk ci hci c hc
  have hklt : k < net.nodes.length := get?_lt_len hk
  have := List.all_eq_true.mp h k (List.mem_range.mpr hklt)
  rw [hk] at this
  simp only at this
  have := List.all_eq_true.mp this ci hci
  rw [hc] at this
  simpa using this

/-- Pointwise extension of layer memo maps. -/
def MapSub (m m' : ℕ → Option ℕ) : Prop :=
  ∀ k v, m k = some v → m' k = some v

/-- The layer memo invariant: every mapped node's registered predecessors
are mapped at least one layer lower. -/
def LayerMapInv (net : Net) (m : ℕ → Option ℕ) : Prop :=
  ∀ k nk, net.nodes.get? k = some nk → ∀ lk, m k = some lk →
    ∀ ci ∈ nk.input_connections, ∀ c, net.connections.get? ci = some c →
      ∃ li, m c.input_node = some li ∧ li + 1 ≤ lk

/-- Visiting a node only writes memo entries of rank at most the node's
rank: higher-ranked entries are untouched. -/
theorem buildLayerVisit_touch (net : Net) (rank : ℕ → ℕ) (hr : RankOk net rank) :
    ∀ fuel m k ml, buildLayerVisit net fuel m k = some ml →
      ∀ b, rank k < rank b → (Prod.fst ml) b = m b := by
  intro fuel
  induction fuel with
  | zero => intro m k ml h; cases h
  | succ fuel ih =>
    intro m k ml h b hb
    rw [buildLayerVisit] at h
    rcases hmk : m k with _ | l
    · rw [hmk] at h
      simp only at h
      rcases hn : net.nodes.get? k with _ | node
      · rw [hn] at h; cases h
      · rw [hn] at h
        rw [Option.map_eq_some'] at h
        obtain ⟨acc, hacc, hmap⟩ := h
        have hfold : ∀ (l : List ℕ), (∀ ci ∈ l, ci ∈ node.input_connections) →
            ∀ (st st' : (ℕ → Option ℕ) × ℕ),
            l.foldlM (buildLayerStep net (fun m1 j => buildLayerVisit net fuel m1 j) k) st
              = some st' →
            ∀ b, rank k ≤ rank b → st'.1 b = st.1 b := by
          intro l
          induction l with
          | nil =>
            intro _ st st' hfo b hb
            simp only [List.foldlM_nil, Option.pure_def, Option.some.injEq] at hfo
            subst hfo
            rfl
          | cons x xs ihl =>
            intro hsub st st' hfo b hb
            rw [List.foldlM_cons] at hfo
            rcases hx : buildLayerStep net (fun m1 j => buildLayerVisit net fuel m1 j) k st x
              with _ | st1
            · rw [hx] at hfo; cases hfo
            · rw [hx] at hfo
              simp only [Option.bind_eq_bind, Option.some_bind] at hfo
              have hstep : st1.1 b = st.1 b := by
                rw [buildLayerStep] at hx
                rcases hcx : net.connections.get? x with _ | c
                · rw [hcx] at hx; cases hx
                · rw [hcx] at hx
                  simp only at hx
                  by_cases hon : k = c.output_node
                  · rw [if_pos hon] at hx
                    rcases hv : buildLayerVisit net fuel st.1 c.input_node with _ | ml2
                    · rw [hv] at hx; cases hx
                    · rw [hv] at hx
                      simp only [Option.some.injEq] at hx
                      subst hx
                      have hrank2 : rank c.input_node < rank k :=
                        hr k node hn x (hsub x (List.mem_cons_self x xs)) c hcx
                      exact ih st.1 c.input_node ml2 hv b (lt_of_lt_of_le hrank2 hb)
                  · rw [if_neg hon] at hx
                    cases hx
              rw [ihl (fun ci hci => hsub ci (List.mem_cons_of_mem x hci)) st1 st' hfo b hb,
                hstep]
        have hacc2 : acc.1 b = m b :=
          hfold node.input_connections (fun ci h => h) (m, 0) acc hacc b (le_of_lt hb)
        subst hmap
        simp only
        rw [if_neg (by rintro rfl; exact lt_irrefl _ hb)]
        exact hacc2
    · rw [hmk] at h
      simp only [Option.some.injEq] at h
      subst h
      rfl

/-- Main invariant of build_layer_order_recurse: on success the memo map
extends monotonically, keeps the predecessor-layer invariant, and registers
the visited node at the returned layer. -/
theorem buildLayerVisit_inv (net : Net) (rank : ℕ → ℕ) (hr : RankOk net rank) :
    ∀ fuel m k ml, buildLayerVisit net fuel m k = some ml →
      LayerMapInv net m →
      LayerMapInv net (Prod.fst ml) ∧ MapSub m (Prod.fst ml)
        ∧ (Prod.fst ml) k = some (Prod.snd ml) := by
  intro fuel
  induction fuel with
  | zero => intro m k ml h; cases h
  | succ fuel ih =>
    intro m k ml h hinv
    rw [buildLayerVisit] at h
    rcases hmk : m k with _ | l
    · rw [hmk] at h
      simp only at h
      rcases hn : net.nodes.get? k with _ | node
      · rw [hn] at h; cases h
      · rw [hn] at h
        rw [Option.map_eq_some'] at h
        obtain ⟨acc, hacc, hmap⟩ := h
        have hfold : ∀ (l : List ℕ), (∀ ci ∈ l, ci ∈ node.input_connections) →
            ∀ (st st' : (ℕ → Option ℕ) × ℕ),
            l.foldlM (buildLayerStep net (fun m1 j => buildLayerVisit net fuel m1 j) k) st
              = some st' →
            LayerMapInv net st.1 →
            LayerMapInv net st'.1 ∧ MapSub st.1 st'.1 ∧ st.2 ≤ st'.2
            ∧ (∀ ci ∈ l, ∀ c, net.connections.get? ci = some c →
                ∃ li, st'.1 c.input_node = some li ∧ li + 1 ≤ st'.2) := by
          intro l
          induction l with
          | nil =>
            intro _ st st' hfo hinv0
            simp only [List.foldlM_nil, Option.pure_def, Option.some.injEq] at hfo
            subst hfo
            exact ⟨hinv0, fun _ _ h => h, le_refl _,
              fun ci hci => absurd hci (List.not_mem_nil ci)⟩
          | cons x xs ihl =>
            intro hsub st st' hfo hinv0
            rw [List.foldlM_cons] at hfo
            rcases hx : buildLayerStep net (fun m1 j => buildLayerVisit net fuel m1 j) k st x
              with _ | st1
            · rw [hx] at hfo; cases hfo
            · rw [hx] at hfo
              simp only [Option.bind_eq_bind, Option.some_bind] at hfo
              rw [buildLayerStep] at hx
              rcases hcx : net.connections.get? x with _ | c
              · rw [hcx] at hx; cases hx
              · rw [hcx] at hx
                simp only at hx
                by_cases hon : k = c.output_node
                · rw [if_pos hon] at hx
                  rcases hv : buildLayerVisit net fuel st.1 c.input_node with _ | ml2
                  · rw [hv] at hx; cases hx
                  · rw [hv] at hx
                    simp only [Option.some.injEq] at hx
                    subst hx
                    obtain ⟨hinv1, hsub1, hreg1⟩ := ih st.1 c.input_node ml2 hv hinv0
                    obtain ⟨hinv2, hsub2, hle2, hpost2⟩ :=
                      ihl (fun ci hci => hsub ci (List.mem_cons_of_mem x hci))
                        (ml2.1, max st.2 (1 + ml2.2)) st' hfo hinv1
                    refine ⟨hinv2, fun j v hj => hsub2 j v (hsub1 j v hj),
                      le_trans (le_max_left _ _) hle2, ?_⟩
                    intro ci hci c2 hc2
                    rcases List.mem_cons.mp hci with rfl | hci
                    · rw [hcx] at hc2
                      injection hc2 with hc2
                      subst hc2
                      exact ⟨ml2.2, hsub2 _ _ hreg1,
                        le_trans (le_trans (by omega : ml2.2 + 1 ≤ 1 + ml2.2)
                          (le_max_right st.2 (1 + ml2.2))) hle2⟩
                    · exact hpost2 ci hci c2 hc2
                · rw [if_neg hon] at hx
                  cases hx
        obtain ⟨hinv1, hsub1, hle1, hpost1⟩ :=
          hfold node.input_connections (fun ci h => h) (m, 0) acc hacc hinv
        have hfresh : acc.1 k = Option.none := by
          have := buildLayerVisit_touch net rank hr
          have htch : ∀ (l : List ℕ), (∀ ci ∈ l, ci ∈ node.input_connections) →
              ∀ (st st' : (ℕ → Option ℕ) × ℕ),
              l.foldlM (buildLayerStep net (fun m1 j => buildLayerVisit net fuel m1 j) k) st
                = some st' →
              ∀ b, rank k ≤ rank b → st'.1 b = st.1 b := by
            intro l
            induction l with
            | nil =>
              intro _ st st' hfo b hb
              simp only [List.foldlM_nil, Option.pure_def, Option.some.injEq] at hfo
              subst hfo
              rfl
            | cons x xs ihl =>
              intro hsub st st' hfo b hb
              rw [List.foldlM_cons] at hfo
              rcases hx : buildLayerStep net (fun m1 j => buildLayerVisit net fuel m1 j) k st x
                with _ | st1
              · rw [hx] at hfo; cases hfo
              · rw [hx] at hfo
                simp only [Option.bind_eq_bind, Option.some_bind] at hfo
                have hstep : st1.1 b = st.1 b := by
                  rw [buildLayerStep] at hx
                  rcases hcx : net.connections.get? x with _ | c
                  · rw [hcx] at hx; cases hx
                  · rw [hcx] at hx
                    simp only at hx
                    by_cases hon : k = c.output_node
                    · rw [if_pos hon] at hx
                      rcases hv : buildLayerVisit net fuel st.1 c.input_node with _ | ml2
                      · rw [hv] at hx; cases hx
                      · rw [hv] at hx
                        simp only [Option.some.injEq] at hx
                        subst hx
                        have hrank2 : rank c.input_node < rank k :=
                          hr k node hn x (hsub x (List.mem_cons_self x xs)) c hcx
                        exact buildLayerVisit_touch net rank hr fuel st.1 c.input_node ml2 hv b
                          (lt_of_lt_of_le hrank2 hb)
                    · rw [if_neg hon] at hx
                      cases hx
                rw [ihl (fun ci hci => hsub ci (List.mem_cons_of_mem x hci)) st1 st' hfo b hb,
                  hstep]
          rw [htch node.input_connections (fun ci h => h) (m, 0) acc hacc k (le_refl _)]
          exact hmk
        subst hmap
        simp only
        refine ⟨?_, ?_, by simp⟩
        · intro q nq hq lq hlq ci hci c hc
          by_cases hqk : q = k
          · subst hqk
            rw [hn] at hq
            injection hq with hq
            subst hq
            simp at hlq
            subst hlq
            obtain ⟨li, hli, hle⟩ := hpost1 ci hci c hc
            have hne : c.input_node ≠ q := by
              intro heq
              have := hr q node hn ci hci c hc
              rw [heq] at this
              exact lt_irrefl _ this
            exact ⟨li, by simp only [if_neg hne]; exact hli, hle⟩
          · simp only [if_neg hqk] at hlq
            obtain ⟨li, hli, hle⟩ := hinv1 q nq hq lq hlq ci hci c hc
            have hne : c.input_node ≠ k := by
              intro heq
              rw [heq, hfresh] at hli
              cases hli
            exact ⟨li, by simp only [if_neg hne]; exact hli, hle⟩
        · intro j v hj
          have hne : j ≠ k := by
            intro heq
            rw [heq, hmk] at hj
            cases hj
          simp only [if_neg hne]
          exact hsub1 j v hj
    · rw [hmk] at h
      simp only [Option.some.injEq] at h
      subst h
      exact ⟨hinv, fun _ _ h => h, hmk⟩

/-- The driver loop preserves the layer memo invariant. -/
theorem buildOuts_layer_inv (net : Net) (rank : ℕ → ℕ) (hr : RankOk net rank) :
    ∀ (outs : List ℕ) (st : EvalSt) (m : ℕ → Option ℕ) (acc' : EvalSt × (ℕ → Option ℕ)),
      buildOuts net outs (st, m) = some acc' → LayerMapInv net m →
      LayerMapInv net acc'.2 := by
  intro outs
  induction outs with
  | nil =>
    intro st m acc' h hm
    simp only [buildOuts, Option.some.injEq] at h
    subst h
    exact hm
  | cons k rest ih =>
    intro st m acc' h hm
    simp only [buildOuts, Option.bind_eq_bind, Option.bind_eq_some] at h
    obtain ⟨st1, hst1, ml, hml, hrest⟩ := h
    obtain ⟨hm1, -, -⟩ := buildLayerVisit_inv net rank hr _ m k ml hml hm
    exact ih st1 ml.1 acc' hrest hm1

/-- Rewriting every connection's enabled flag (by position). -/
def setFlagsFrom (f : ℕ → Bool) : ℕ → List Connection → List Connection
  | _, [] => []
  | i, c :: rest => { c with is_enabled := f i } :: setFlagsFrom f (i + 1) rest

/-- The same genome with every connection's enabled flag replaced by f. -/
def Net.setFlags (net : Net) (f : ℕ → Bool) : Net :=
  { net with connections := setFlagsFrom f 0 net.connections }

/-- Positional lookup through setFlagsFrom. -/
theorem setFlagsFrom_get? (f : ℕ → Bool) :
    ∀ (l : List Connection) (i j : ℕ),
      (setFlagsFrom f i l).get? j = (l.get? j).map (fun c => { c with is_enabled := f (i + j) }) := by
  intro l
  induction l with
  | nil => intro i j; cases j <;> rfl
  | cons c rest ih =>
    intro i j
    cases j with
    | zero => simp [setFlagsFrom]
    | succ j2 =>
      simp only [setFlagsFrom, List.get?]
      rw [ih (i + 1) j2]
      have harith : i + 1 + j2 = i + (j2 + 1) := by omega
      rw [harith]

/-- foldlM over Option respects pointwise-equal step functions. -/
theorem foldlM_ext {σ α : Type} (g1 g2 : σ → α → Option σ)
    (hg : ∀ s a, g1 s a = g2 s a) :
    ∀ (l : List α) (s : σ), l.foldlM g1 s = l.foldlM g2 s := by
  intro l
  induction l with
  | nil => intro s; rfl
  | cons x xs ih =>
    intro s
    rw [List.foldlM_cons, List.foldlM_cons, hg]
    cases g2 s x with
    | none => rfl
    | some s1 => simp only [Option.bind_eq_bind, Option.some_bind]; exact ih s1

/-- C5 second half at the recursion level: the layer computation never reads
an enabled flag, so it is invariant under arbitrary rewrites of all flags. -/
theorem buildLayerVisit_flag_independent (net : Net) (f : ℕ → Bool) :
    ∀ fuel m k, buildLayerVisit (net.setFlags f) fuel m k = buildLayerVisit net fuel m k := by
  intro fuel
  induction fuel with
  | zero => intro m k; rfl
  | succ fuel ih =>
    intro m k
    rw [buildLayerVisit, buildLayerVisit]
    rcases m k with _ | l
    · simp only
      have hnodes : (net.setFlags f).nodes = net.nodes := rfl
      rw [hnodes]
      rcases net.nodes.get? k with _ | node
      · rfl
      · simp only
        have hfold : node.input_connections.foldlM
            (buildLayerStep (net.setFlags f)
              (fun m1 j => buildLayerVisit (net.setFlags f) fuel m1 j) k) (m, 0)
            = node.input_connections.foldlM
            (buildLayerStep net (fun m1 j => buildLayerVisit net fuel m1 j) k) (m, 0) := by
          apply foldlM_ext
          intro s a
          rw [buildLayerStep, buildLayerStep]
          have hget : (net.setFlags f).connections.get? a
              = (net.connections.get? a).map (fun c => { c with is_enabled := f (0 + a) }) :=
            setFlagsFrom_get? f net.connections 0 a
          rw [hget]
          rcases net.connections.get? a with _ | c
          · rfl
          · simp only [Option.map_some']
            simp [ih]
        rw [hfold]
    · rfl

/-- Every connection's endpoints are valid node positions (source invariant
check 3a). -/
def Net.connEndpointsValid (net : Net) : Bool :=
  net.connections.all (fun c =>
    decide (c.input_node < net.nodes.length) && decide (c.output_node < net.nodes.length))

/-- Input-layer nodes have no incoming connections (true of every genome the
system builds: mutation never chooses an Input node as a connection target). -/
def Net.inputsNoIncoming (net : Net) : Bool :=
  net.nodes.all (fun n => decide (n.layer ≠ Layer.input) || decide (n.input_connections = []))

/-- No connection leaves an Output-layer node (mutation never chooses an
Output node as a connection source). -/
def Net.noConnLeavesOutput (net : Net) : Bool :=
  net.connections.all (fun c =>
    match net.nodes.get? c.input_node with
    | some n => decide (n.layer ≠ Layer.output)
    | Option.none => true)

/-- All hidden depths fit under the source's u16 Output sentinel 65536. -/
def Net.hiddenDepthsBounded (net : Net) : Bool :=
  net.nodes.all (fun n =>
    match n.layer with
    | Layer.hidden d => decide (d + 1 < 65536)
    | _ => true)

/-- Characterization of the layer-copying pass. -/
theorem relabelNodes_spec (m : ℕ → Option ℕ) :
    ∀ (l : List Node) (k0 : ℕ) (l2 : List Node), relabelNodes m k0 l = some l2 →
      l2.length = l.length ∧
      ∀ j nj, l.get? j = some nj → ∃ nj2, l2.get? j = some nj2 ∧
        nj2.id = nj.id ∧ nj2.activation_function = nj.activation_function ∧
        nj2.input_connections = nj.input_connections ∧ nj2.value = nj.value ∧
        ((nj.layer = Layer.input ∧ nj2.layer = Layer.input) ∨
         (nj.layer = Layer.output ∧ nj2.layer = Layer.output) ∨
         (nj.layer ≠ Layer.input ∧ nj.layer ≠ Layer.output ∧
           ((∃ d, m (k0 + j) = some d ∧ nj2.layer = Layer.hidden d) ∨
            (m (k0 + j) = Option.none ∧ nj2.layer = Layer.unreachable)))) := by
  intro l
  induction l with
  | nil =>
    intro k0 l2 h
    simp only [relabelNodes, Option.some.injEq] at h
    subst h
    exact ⟨rfl, fun j nj hj => by cases hj⟩
  | cons n rest ih =>
    intro k0 l2 h
    simp only [relabelNodes, Option.bind_eq_bind, Option.bind_eq_some] at h
    obtain ⟨n1, hn1, rest1, hrest1, hl2⟩ := h
    injection hl2 with hl2
    subst hl2
    obtain ⟨hlen, hspec⟩ := ih (k0 + 1) rest1 hrest1
    constructor
    · simp [hlen]
    · intro j nj hj
      cases j with
      | zero =>
        simp only [List.get?] at hj
        injection hj with hj
        subst hj
        refine ⟨n1, by simp, ?_⟩
        rw [relabelNode] at hn1
        rcases hlay : n.layer with _ | d
        · rw [hlay] at hn1
          simp only at hn1
          rcases hift : is_none_or (m k0) fun l => decide (l = 0) with _ | _
          · rw [hift] at hn1; cases hn1
          · rw [hift] at hn1
            simp only [if_pos rfl] at hn1
            injection hn1 with hn1
            subst hn1
            exact ⟨rfl, rfl, rfl, rfl, Or.inl ⟨by simp [hlay], by simp [hlay]⟩⟩
        all_goals rw [hlay] at hn1
        · -- hidden
          simp only at hn1
          rcases hm : m k0 with _ | d2
          · rw [hm] at hn1
            injection hn1 with hn1
            subst hn1
            refine ⟨rfl, rfl, rfl, rfl, Or.inr (Or.inr ⟨by simp [hlay], by simp [hlay], ?_⟩)⟩
            right
            simpa using hm
          · rw [hm] at hn1
            injection hn1 with hn1
            subst hn1
            refine ⟨rfl, rfl, rfl, rfl, Or.inr (Or.inr ⟨by simp [hlay], by simp [hlay], ?_⟩)⟩
            left
            exact ⟨d2, by simpa using hm, rfl⟩
        · -- output
          simp only at hn1
          rcases hift : is_none_or (m k0) fun l => decide (0 < l) || decide (n.input_connections = [])
            with _ | _
          · rw [hift] at hn1; cases hn1
          · rw [hift] at hn1
            simp only [if_pos rfl] at hn1
            injection hn1 with hn1
            subst hn1
            exact ⟨rfl, rfl, rfl, rfl, Or.inr (Or.inl ⟨by simp [hlay], by simp [hlay]⟩)⟩
        · -- unreachable
          simp only at hn1
          rcases hm : m k0 with _ | d2
          · rw [hm] at hn1
            injection hn1 with hn1
            subst hn1
            refine ⟨rfl, rfl, rfl, rfl, Or.inr (Or.inr ⟨by simp [hlay], by simp [hlay], ?_⟩)⟩
            right
            simpa using hm
          · rw [hm] at hn1
            injection hn1 with hn1
            subst hn1
            refine ⟨rfl, rfl, rfl, rfl, Or.inr (Or.inr ⟨by simp [hlay], by simp [hlay], ?_⟩)⟩
            left
            exact ⟨d2, by simpa using hm, rfl⟩
      | succ j2 =>
        simp only [List.get?] at hj ⊢
        obtain ⟨nj2, hget, hrest⟩ := hspec j2 nj hj
        refine ⟨nj2, hget, ?_⟩
        have harith : k0 + 1 + j2 = k0 + (j2 + 1) := by omega
        rw [harith] at hrest
        exact hrest

/-- C5: for a structurally well-formed genome (registered connections, no
connection into an Input or out of an Output node, a feed-forward rank
certificate) whose evaluation order has just been built, every connection
(u → v) — enabled or NOT — satisfies layer(u) < layer(v) in the source's
layer numbering, or u and v are both Hidden at equal depth, or an endpoint
is Unreachable; and the layer computation reads no enabled flag at all, so
rewriting every connection's flag leaves the layer recursion's result
unchanged. -/
theorem layering_valid_and_flag_independent (net net' : Net) (rank : ℕ → ℕ)
    (hflag : net.is_evaluation_order_up_to_date = false)
    (hcov : net.connCover = true)
    (hvalid : net.connEndpointsValid = true)
    (hinp : net.inputsNoIncoming = true)
    (hnoout : net.noConnLeavesOutput = true)
    (hrank : net.rankOkB rank = true)
    (h : net.build_evaluation_order = some net')
    (hbound : net'.hiddenDepthsBounded = true) :
    (∀ ci c, net'.connections.get? ci = some c →
      ∃ nu nv, net'.nodes.get? c.input_node = some nu ∧
        net'.nodes.get? c.output_node = some nv ∧
        (nu.layer.to_number < nv.layer.to_number
         ∨ (∃ d, nu.layer = Layer.hidden d ∧ nv.layer = Layer.hidden d)
         ∨ nu.layer = Layer.unreachable ∨ nv.layer = Layer.unreachable))
    ∧ (∀ f fuel m k,
        buildLayerVisit (net.setFlags f) fuel m k = buildLayerVisit net fuel m k) := by
  have hr : RankOk net rank := rankOk_of_b hrank
  rw [Net.build_evaluation_order, if_neg (by simp [hflag])] at h
  simp only [Option.bind_eq_bind, Option.bind_eq_some] at h
  obtain ⟨acc, hacc, nodes1, hnodes1, hout⟩ := h
  injection hout with hout2
  subst hout2
  have hinv0 : LayerMapInv net (initLayerMap net) := by
    intro k nk hk lk hlk ci hci c hc
    rw [initLayerMap, hk] at hlk
    simp only at hlk
    by_cases hkl : nk.layer = Layer.input
    · have hmem : nk ∈ net.nodes := List.get?_mem hk
      have hin := List.all_eq_true.mp hinp nk hmem
      simp only [Bool.or_eq_true, decide_eq_true_eq] at hin
      rcases hin with hne | hempty
      · exact absurd hkl hne
      · rw [hempty] at hci
        exact absurd hci (List.not_mem_nil ci)
    · rw [if_neg hkl] at hlk
      cases hlk
  have hfin : LayerMapInv net acc.2 :=
    buildOuts_layer_inv net rank hr (outputPositions net) ([], fun _ => false)
      (initLayerMap net) acc hacc hinv0
  obtain ⟨hlen1, hspec1⟩ := relabelNodes_spec acc.2 net.nodes 0 nodes1 hnodes1
  constructor
  · intro ci c hc
    dsimp only at hc ⊢
    have hmemc : c ∈ net.connections := List.get?_mem hc
    have hv := List.all_eq_true.mp hvalid c hmemc
    simp only [Bool.and_eq_true, decide_eq_true_eq] at hv
    rcases hnu0 : net.nodes.get? c.input_node with _ | nu0
    · rw [List.get?_eq_none] at hnu0
      omega
    rcases hnv0 : net.nodes.get? c.output_node with _ | nv0
    · rw [List.get?_eq_none] at hnv0
      omega
    obtain ⟨nu, hnu, -, -, -, -, hud⟩ := hspec1 c.input_node nu0 hnu0
    obtain ⟨nv, hnv, -, -, -, -, hvd⟩ := hspec1 c.output_node nv0 hnv0
    simp only [Nat.zero_add] at hud hvd
    refine ⟨nu, nv, hnu, hnv, ?_⟩
    have hnoout2 : nu0.layer ≠ Layer.output := by
      have := List.all_eq_true.mp hnoout c hmemc
      rw [hnu0] at this
      simpa using this
    rcases hvd with ⟨hv0in, _⟩ | ⟨hv0out, hvout⟩ | ⟨hv0nin, hv0nout, hvsub⟩
    · -- connection into an Input node: impossible
      exfalso
      have hciin : ci ∈ nv0.input_connections := connCover_spec hcov hc hnv0
      have hmemv : nv0 ∈ net.nodes := List.get?_mem hnv0
      have hin := List.all_eq_true.mp hinp nv0 hmemv
      simp only [Bool.or_eq_true, decide_eq_true_eq] at hin
      rcases hin with hne | hempty
      · exact hne hv0in
      · rw [hempty] at hciin
        exact absurd hciin (List.not_mem_nil ci)
    · -- v is an Output node
      rw [hvout]
      rcases hud with ⟨-, huin⟩ | ⟨hu0out, -⟩ | ⟨-, -, husub⟩
      · left
        rw [huin]
        simp [Layer.to_number]
      · exact absurd hu0out hnoout2
      · rcases husub with ⟨d, -, huhid⟩ | ⟨-, hunr⟩
        · left
          rw [huhid]
          have hmemu : nu ∈ nodes1 := List.get?_mem hnu
          have hb := List.all_eq_true.mp hbound nu hmemu
          rw [huhid] at hb
          simp only [decide_eq_true_eq] at hb
          simpa [Layer.to_number] using hb
        · right; right; left
          exact hunr
    · -- v is Hidden or Unreachable after relabelling
      rcases hvsub with ⟨dv, hmv, hvhid⟩ | ⟨-, hvnr⟩
      · -- v mapped at depth dv
        have hciin : ci ∈ nv0.input_connections := connCover_spec hcov hc hnv0
        obtain ⟨lu, hlu, hle⟩ := hfin c.output_node nv0 hnv0 dv hmv ci hciin c hc
        rcases hud with ⟨-, huin⟩ | ⟨hu0out, -⟩ | ⟨-, -, husub⟩
        · left
          rw [huin, hvhid]
          simp [Layer.to_number]
        · exact absurd hu0out hnoout2
        · rcases husub with ⟨d, hmu, huhid⟩ | ⟨hmu, -⟩
          · left
            rw [huhid, hvhid]
            rw [hmu] at hlu
            injection hlu with hlu
            subst hlu
            simp only [Layer.to_number]
            omega
          · rw [hmu] at hlu
            cases hlu
      · right; right; right
        exact hvnr
  · intro f fuel m k
    exact buildLayerVisit_flag_independent net f fuel m k

/-- C5 witness: the freshly built C3 genome with the identity rank; its one
connection goes from the Input layer (0) to the Output layer (65536). -/
theorem layering_valid_and_flag_independent_witness :
    (∀ ci c, netC3built.connections.get? ci = some c →
      ∃ nu nv, netC3built.nodes.get? c.input_node = some nu ∧
        netC3built.nodes.get? c.output_node = some nv ∧
        (nu.layer.to_number < nv.layer.to_number
         ∨ (∃ d, nu.layer = Layer.hidden d ∧ nv.layer = Layer.hidden d)
         ∨ nu.layer = Layer.unreachable ∨ nv.layer = Layer.unreachable))
    ∧ (∀ f fuel m k,
        buildLayerVisit (netC3.setFlags f) fuel m k = buildLayerVisit netC3 fuel m k) :=
  layering_valid_and_flag_independent netC3 netC3built (fun k => k) (by decide)
    (by decide) (by decide) (by decide) (by decide) (by decide) (by decide) (by decide)

/-! ## Standard Input/Output slot layout (C9) -/

/-- The fixed slot layout every genome of the system keeps: positions
0..input_count hold exactly the Input-layer nodes, positions
input_count..input_count+output_count exactly the Output-layer nodes, and
everything beyond is neither. -/
def layoutStandard (net : Net) : Prop :=
  net.input_count + net.output_count ≤ net.nodes.length ∧
  ∀ k nk, net.nodes.get? k = some nk →
    (k < net.input_count → nk.layer = Layer.input) ∧
    (net.input_count ≤ k → k < net.input_count + net.output_count →
      nk.layer = Layer.output) ∧
    (net.input_count + net.output_count ≤ k →
      nk.layer ≠ Layer.input ∧ nk.layer ≠ Layer.output)

/-- Decidable form of layoutStandard. -/
def Net.layoutStandardB (net : Net) : Bool :=
  decide (net.input_count + net.output_count ≤ net.nodes.length) &&
  (List.range net.nodes.length).all (fun k =>
    match net.nodes.get? k with
    | some nk =>
      (decide (net.input_count ≤ k) || decide (nk.layer = Layer.input)) &&
      (decide (k < net.input_count) || decide (net.input_count + net.output_count ≤ k)
        || decide (nk.layer = Layer.output)) &&
      (decide (k < net.input_count + net.output_count)
        || (decide (nk.layer ≠ Layer.input) && decide (nk.layer ≠ Layer.output)))
    | Option.none => true)

/-- layoutStandardB implies layoutStandard. -/
theorem layoutStandard_of_b {net : Net} (h : net.layoutStandardB = true) :
    layoutStandard net := by
  rw [Net.layoutStandardB, Bool.and_eq_true] at h
  obtain ⟨hle, hall⟩ := h
  refine ⟨by simpa using hle, ?_⟩
  intro k nk hk
  have hklt : k < net.nodes.length := get?_lt_len hk
  have := List.all_eq_true.mp hall k (List.mem_range.mpr hklt)
  rw [hk] at this
  simp only [Bool.and_eq_true, Bool.or_eq_true, decide_eq_true_eq] at this
  obtain ⟨⟨h1, h2⟩, h3⟩ := this
  refine ⟨?_, ?_, ?_⟩
  · intro hkin
    rcases h1 with h1 | h1
    · omega
    · exact h1
  · intro hge hlt
    rcases h2 with (h2 | h2) | h2
    · omega
    · omega
    · exact h2
  · intro hge
    rcases h3 with h3 | h3
    · omega
    · exact ⟨h3.1, h3.2⟩

/-- The layer profile of the node list: position to layer. -/
def layersAt (nodes : List Node) : ℕ → Option Layer :=
  fun k => (nodes.get? k).map Node.layer

/-- A genome transformation that keeps counts, node count and every node's
layer keeps the standard layout. -/
theorem layoutStandard_transfer {net net2 : Net}
    (hcounts : net2.input_count = net.input_count ∧ net2.output_count = net.output_count)
    (hlen : net2.nodes.length = net.nodes.length)
    (hlay : ∀ k, layersAt net2.nodes k = layersAt net.nodes k)
    (hs : layoutStandard net) : layoutStandard net2 := by
  obtain ⟨hle, hspec⟩ := hs
  obtain ⟨hci, hco⟩ := hcounts
  refine ⟨by rw [hci, hco, hlen]; exact hle, ?_⟩
  intro k nk hk
  have := hlay k
  rw [layersAt, layersAt, hk] at this
  rcases hk0 : net.nodes.get? k with _ | nk0
  · rw [hk0] at this; cases this
  · rw [hk0] at this
    simp only [Option.map_some', Option.some.injEq] at this
    have hspec0 := hspec k nk0 hk0
    rw [hci, hco, this]
    exact hspec0

/-- pushIncoming changes no node's layer (nor the node count). -/
theorem pushIncoming_layersAt (nodes : List Node) (o ci : ℕ) :
    (pushIncoming nodes o ci).length = nodes.length ∧
    ∀ k, layersAt (pushIncoming nodes o ci) k = layersAt nodes k := by
  rw [pushIncoming]
  rcases ho : nodes.get? o with _ | n
  · exact ⟨rfl, fun _ => rfl⟩
  · constructor
    · simp
    · intro k
      rw [layersAt, layersAt]
      by_cases hko : k = o
      · subst hko
        rw [List.get?_set_eq, ho]
        simp
      · rw [List.get?_set_ne _ _ (fun h => hko h.symm)]

/-- List.set at the same layer keeps the layer profile. -/
theorem set_layersAt (nodes : List Node) (k0 : ℕ) (n0 n1 : Node)
    (hget : nodes.get? k0 = some n0) (hl : n1.layer = n0.layer) :
    ∀ k, layersAt (nodes.set k0 n1) k = layersAt nodes k := by
  intro k
  rw [layersAt, layersAt]
  by_cases hk : k = k0
  · subst hk
    rw [List.get?_set_eq, hget]
    simp [hl]
  · rw [List.get?_set_ne _ _ (fun h => hk h.symm)]

/-- Unfolding the construction loops of Net.new: a fold of add_node appends
the corresponding fresh nodes in order. -/
theorem foldl_add_node (mkId : ℕ → ℕ) (af : ActivationFunction) (layer : Layer) :
    ∀ (l : List ℕ) (net : Net),
      l.foldl (fun n k => n.add_node (mkId k) af layer 0) net
        = { net with nodes := net.nodes ++ l.map (fun k => ⟨mkId k, af, layer, [], 0⟩) } := by
  intro l
  induction l with
  | nil => intro net; simp
  | cons x xs ih =>
    intro net
    rw [List.foldl_cons, ih]
    simp [Net.add_node]

/-- The node list of Net.new: the Input nodes in order, then the Output
nodes in order, nothing else; all other fields are the empty genome's. -/
theorem new_nodes (netId input_count output_count : ℕ) (ids : ℕ → ℕ) :
    Net.new netId input_count output_count ids
      = ⟨netId, input_count, output_count,
         (List.range input_count).map
           (fun k => ⟨ids k, ActivationFunction.none, Layer.input, [], 0⟩)
         ++ (List.range output_count).map
           (fun k => ⟨ids (input_count + k), ActivationFunction.sigmoid, Layer.output, [], 0⟩),
         [], 0, false, []⟩ := by
  rw [Net.new]
  simp only [foldl_add_node]
  rfl

/-- C9 part (a): Net.new has the standard layout with exactly
input_count + output_count nodes. -/
theorem new_layoutStandard (netId input_count output_count : ℕ) (ids : ℕ → ℕ) :
    layoutStandard (Net.new netId input_count output_count ids)
    ∧ (Net.new netId input_count output_count ids).nodes.length
        = input_count + output_count
    ∧ (Net.new netId input_count output_count ids).input_count = input_count
    ∧ (Net.new netId input_count output_count ids).output_count = output_count := by
  rw [new_nodes]
  refine ⟨⟨by simp, ?_⟩, by simp, rfl, rfl⟩
  intro k nk hk
  dsimp only at hk ⊢
  by_cases hkin : k < input_count
  · rw [List.get?_append (by simpa using hkin)] at hk
    rw [List.get?_map] at hk
    rw [List.get?_range hkin] at hk
    simp only [Option.map_some', Option.some.injEq] at hk
    subst hk
    refine ⟨fun _ => rfl, ?_, ?_⟩
    · intro hge _
      omega
    · intro hge
      omega
  · rw [List.get?_append_right (by simpa using Nat.le_of_not_lt hkin)] at hk
    simp only [List.length_map, List.length_range] at hk
    rw [List.get?_map] at hk
    by_cases hkout : k - input_count < output_count
    · rw [List.get?_range hkout] at hk
      simp only [Option.map_some', Option.some.injEq] at hk
      subst hk
      refine ⟨fun h => absurd h hkin, fun _ _ => rfl, ?_⟩
      intro hge
      omega
    · rw [List.get?_eq_none.mpr (by simpa using Nat.le_of_not_lt hkout)] at hk
      cases hk

/-- Fields that no mutation branch ever changes. -/
def SameShell (a b : Net) : Prop :=
  a.id = b.id ∧ a.input_count = b.input_count ∧ a.output_count = b.output_count
  ∧ a.fitness_info = b.fitness_info

theorem SameShell.refl (a : Net) : SameShell a a := ⟨rfl, rfl, rfl, rfl⟩

theorem SameShell.trans {a b c : Net} (h1 : SameShell a b) (h2 : SameShell b c) :
    SameShell a c :=
  ⟨h1.1.trans h2.1, h1.2.1.trans h2.2.1, h1.2.2.1.trans h2.2.2.1, h1.2.2.2.trans h2.2.2.2⟩

/-- add_connection keeps the node count and every node's layer. -/
theorem add_connection_layersAt (net : Net) (id : ℕ) (w : ℚ) (e : Bool) (i o : ℕ) :
    (net.add_connection id w e i o).nodes.length = net.nodes.length ∧
    ∀ k, layersAt (net.add_connection id w e i o).nodes k = layersAt net.nodes k :=
  ⟨(pushIncoming_layersAt net.nodes o net.connections.length).1,
   (pushIncoming_layersAt net.nodes o net.connections.length).2⟩

/-- add_connection keeps the standard layout. -/
theorem layoutStandard_add_connection (net : Net) (id : ℕ) (w : ℚ) (e : Bool) (i o : ℕ)
    (hs : layoutStandard net) : layoutStandard (net.add_connection id w e i o) := by
  refine layoutStandard_transfer ?_ ?_ ?_ hs
  · exact ⟨rfl, rfl⟩
  · exact (add_connection_layersAt net id w e i o).1
  · exact (add_connection_layersAt net id w e i o).2

/-- add_node with a non-Input, non-Output layer keeps the standard layout. -/
theorem layoutStandard_add_node (net : Net) (id : ℕ) (af : ActivationFunction)
    (layer : Layer) (v : ℚ) (hn : layer ≠ Layer.input ∧ layer ≠ Layer.output)
    (hs : layoutStandard net) : layoutStandard (net.add_node id af layer v) := by
  obtain ⟨hle, hspec⟩ := hs
  refine ⟨by simp [Net.add_node]; omega, ?_⟩
  intro k nk hk
  simp only [Net.add_node] at hk ⊢
  by_cases hklt : k < net.nodes.length
  · rw [List.get?_append hklt] at hk
    exact hspec k nk hk
  · have hkeq : k = net.nodes.length := by
      have := get?_lt_len hk
      simp only [List.length_append, List.length_singleton] at this
      omega
    subst hkeq
    rw [List.get?_concat_length] at hk
    injection hk with hk
    subst hk
    exact ⟨fun hlt => by omega, fun hge hlt => by omega, fun _ => hn⟩

/-- The activation-swap branch keeps the shell and the layout. -/
theorem mutActivation_spec (net : Net) (p : MutationParams) (mult : ℚ) (ch : MutChoices)
    (lst : List ℕ) (net1 : Net) (h : mutActivation net p mult ch lst = some net1) :
    SameShell net1 net ∧ (layoutStandard net → layoutStandard net1)
    ∧ net1.connections = net.connections
    ∧ net1.is_evaluation_order_up_to_date = net.is_evaluation_order_up_to_date := by
  rw [mutActivation] at h
  split at h
  · simp only [Option.bind_eq_bind, Option.bind_eq_some] at h
    obtain ⟨k, hk, node, hnode, h⟩ := h
    split at h
    · injection h with h
      subst h
      refine ⟨⟨rfl, rfl, rfl, rfl⟩, ?_, rfl, rfl⟩
      intro hs
      refine layoutStandard_transfer ?_ ?_ ?_ hs
      · exact ⟨rfl, rfl⟩
      · simp
      · exact set_layersAt net.nodes k node { node with activation_function := ch.act_new }
          hnode rfl
    · injection h with h
      subst h
      exact ⟨⟨rfl, rfl, rfl, rfl⟩, fun hs => hs, rfl, rfl⟩
  · injection h with h
    subst h
    exact ⟨⟨rfl, rfl, rfl, rfl⟩, fun hs => hs, rfl, rfl⟩

/-- The weight branch keeps the shell, the nodes and the layout. -/
theorem mutWeight_spec (net : Net) (p : MutationParams) (mult : ℚ) (ch : MutChoices)
    (lst : List ℕ) (net1 : Net) (h : mutWeight net p mult ch lst = some net1) :
    SameShell net1 net ∧ net1.nodes = net.nodes
    ∧ net1.is_evaluation_order_up_to_date = net.is_evaluation_order_up_to_date := by
  rw [mutWeight] at h
  split at h
  · simp only [Option.bind_eq_bind, Option.bind_eq_some] at h
    obtain ⟨k, hk, c, hc, h⟩ := h
    injection h with h
    subst h
    exact ⟨⟨rfl, rfl, rfl, rfl⟩, rfl, rfl⟩
  · injection h with h
    subst h
    exact ⟨⟨rfl, rfl, rfl, rfl⟩, rfl, rfl⟩

/-- The toggle branch keeps the shell, the nodes and the layout. -/
theorem mutToggle_spec (net : Net) (p : MutationParams) (mult : ℚ) (ch : MutChoices)
    (lst : List ℕ) (net1 : Net) (h : mutToggle net p mult ch lst = some net1) :
    SameShell net1 net ∧ net1.nodes = net.nodes
    ∧ net1.is_evaluation_order_up_to_date = net.is_evaluation_order_up_to_date := by
  rw [mutToggle] at h
  split at h
  · simp only [Option.bind_eq_bind, Option.bind_eq_some] at h
    obtain ⟨k, hk, c, hc, h⟩ := h
    injection h with h
    subst h
    exact ⟨⟨rfl, rfl, rfl, rfl⟩, rfl, rfl⟩
  · injection h with h
    subst h
    exact ⟨⟨rfl, rfl, rfl, rfl⟩, rfl, rfl⟩

/-- The add-connection branch keeps the shell and the layout. -/
theorem mutAddConn_spec (net : Net) (p : MutationParams) (mult : ℚ) (ch : MutChoices)
    (l1 l2 : List ℕ) (net1 : Net) (h : mutAddConn net p mult ch l1 l2 = some net1) :
    SameShell net1 net ∧ (layoutStandard net → layoutStandard net1)
    ∧ net1.is_evaluation_order_up_to_date = net.is_evaluation_order_up_to_date := by
  rw [mutAddConn] at h
  split at h
  · simp only [Option.bind_eq_bind, Option.bind_eq_some] at h
    obtain ⟨if0, hif0, it0, hit0, fn, hfn, tn, htn, fn2, hfn2, tn2, htn2, cb, hcb, h⟩ := h
    split at h
    · injection h with h
      subst h
      exact ⟨⟨rfl, rfl, rfl, rfl⟩,
        fun hs => layoutStandard_add_connection net _ _ _ _ _ hs, rfl⟩
    · cases h
  · injection h with h
    subst h
    exact ⟨⟨rfl, rfl, rfl, rfl⟩, fun hs => hs, rfl⟩

/-- The add-node step keeps the shell and the layout (it appends one Hidden
node and otherwise only touches connections and incoming lists). -/
theorem addNodeStep_spec (net : Net) (pos node_id cidA cidB : ℕ) (net1 : Net)
    (h : net.addNodeStep pos node_id cidA cidB = some net1) :
    SameShell net1 net ∧ (layoutStandard net → layoutStandard net1) := by
  rw [Net.addNodeStep] at h
  simp only [Option.bind_eq_bind, Option.bind_eq_some] at h
  obtain ⟨c, hc, node_output, hout, h⟩ := h
  injection h with h
  subst h
  constructor
  · exact ⟨rfl, rfl, rfl, rfl⟩
  · intro hs
    refine layoutStandard_add_connection _ _ _ _ _ _
      (layoutStandard_add_connection _ _ _ _ _ _
        (layoutStandard_add_node _ _ _ _ _ ⟨by simp, by simp⟩ ?_))
    exact hs

/-- The add-node branch keeps the shell and the layout. -/
theorem mutAddNode_spec (net : Net) (p : MutationParams) (mult : ℚ) (ch : MutChoices)
    (lst : List ℕ) (net1 : Net) (h : mutAddNode net p mult ch lst = some net1) :
    SameShell net1 net ∧ (layoutStandard net → layoutStandard net1) := by
  rw [mutAddNode] at h
  split at h
  · simp only [Option.bind_eq_bind, Option.bind_eq_some] at h
    obtain ⟨pos, hpos, hstep⟩ := h
    exact addNodeStep_spec net pos ch.add_node_id ch.add_node_conn_id_a
      ch.add_node_conn_id_b net1 hstep
  · injection h with h
    subst h
    exact ⟨SameShell.refl _, fun hs => hs⟩

/-- A transformation that keeps counts and the node list keeps the layout. -/
theorem layout_of_nodes_eq {x y : Net}
    (hc : x.input_count = y.input_count ∧ x.output_count = y.output_count)
    (hn : x.nodes = y.nodes) (hs : layoutStandard y) : layoutStandard x := by
  refine layoutStandard_transfer ?_ ?_ ?_ hs
  · exact hc
  · rw [hn]
  · intro k
    rw [layersAt, layersAt, hn]

/-- Net::build_evaluation_order (on a stale cache) keeps the shell, the
connections and the standard layout, and sets the up-to-date flag. -/
theorem build_evaluation_order_spec (net net2 : Net)
    (hf : net.is_evaluation_order_up_to_date = false)
    (h : net.build_evaluation_order = some net2) :
    SameShell net2 net ∧ net2.connections = net.connections ∧
    net2.is_evaluation_order_up_to_date = true ∧
    net2.nodes.length = net.nodes.length ∧
    (layoutStandard net → layoutStandard net2) := by
  rw [Net.build_evaluation_order, hf] at h
  simp only [Bool.false_eq_true, if_false, Option.bind_eq_bind, Option.bind_eq_some] at h
  obtain ⟨acc, hacc, nodes1, hn1, h⟩ := h
  injection h with h
  subst h
  obtain ⟨hlen, hspec⟩ := relabelNodes_spec acc.2 net.nodes 0 nodes1 hn1
  refine ⟨⟨rfl, rfl, rfl, rfl⟩, rfl, rfl, hlen, ?_⟩
  intro hs
  obtain ⟨hle, hsp⟩ := hs
  refine ⟨?_, ?_⟩
  · dsimp only
    rw [hlen]
    exact hle
  · intro k nk hk
    dsimp only at hk ⊢
    rcases hk0 : net.nodes.get? k with _ | nk0
    · exfalso
      have h1 := get?_lt_len hk
      rw [hlen] at h1
      rw [List.get?_eq_none] at hk0
      omega
    · obtain ⟨nj2, hj2, _, _, _, _, hclass⟩ := hspec k nk0 hk0
      rw [hk] at hj2
      injection hj2 with hj2
      subst hj2
      obtain ⟨g1, g2, g3⟩ := hsp k nk0 hk0
      refine ⟨?_, ?_, ?_⟩
      · intro hki
        have hi := g1 hki
        rcases hclass with ⟨_, h2⟩ | ⟨hx, _⟩ | ⟨hx, _, _⟩
        · exact h2
        · rw [hi] at hx
          cases hx
        · exact absurd hi hx
      · intro hge hlt
        have ho := g2 hge hlt
        rcases hclass with ⟨hx, _⟩ | ⟨_, h2⟩ | ⟨_, hx, _⟩
        · rw [ho] at hx
          cases hx
        · exact h2
        · exact absurd ho hx
      · intro hge
        obtain ⟨ha, hb⟩ := g3 hge
        rcases hclass with ⟨hx, _⟩ | ⟨hx, _⟩ | ⟨_, _, hres⟩
        · exact absurd hx ha
        · exact absurd hx hb
        · rcases hres with ⟨d, _, hl⟩ | ⟨_, hl⟩ <;> rw [hl] <;> exact ⟨by simp, by simp⟩

/-- Net::mutate_self keeps the shell and the standard layout; a successful
run always ends with a current evaluation order and passing invariants. -/
theorem mutate_self_spec (net0 : Net) (p : MutationParams) (mult : ℚ) (ch : MutChoices)
    (net6 : Net) (h : net0.mutate_self p mult ch = some net6) :
    SameShell net6 net0 ∧ net6.is_evaluation_order_up_to_date = true ∧
    net6.verify_invariants = true ∧ (layoutStandard net0 → layoutStandard net6) := by
  rw [Net.mutate_self] at h
  simp only [Option.bind_eq_bind, Option.bind_eq_some] at h
  obtain ⟨net1, h1, net2, h2, net3, h3, net4, h4, net5, h5, net6b, h6, hif⟩ := h
  have hv : net6b.verify_invariants = true ∧ net6b = net6 := by
    split at hif
    · refine ⟨by assumption, ?_⟩
      injection hif
    · cases hif
  obtain ⟨hv1, hveq⟩ := hv
  subst hveq
  obtain ⟨hs1, hl1, _, _⟩ := mutActivation_spec _ _ _ _ _ _ h1
  obtain ⟨hs2, hn2, _⟩ := mutWeight_spec _ _ _ _ _ _ h2
  obtain ⟨hs3, hn3, _⟩ := mutToggle_spec _ _ _ _ _ _ h3
  obtain ⟨hs4, hl4, _⟩ := mutAddConn_spec _ _ _ _ _ _ _ h4
  obtain ⟨hs5, hl5⟩ := mutAddNode_spec _ _ _ _ _ _ h5
  obtain ⟨hs6, _, hflag6, _, hl6⟩ := build_evaluation_order_spec _ _ rfl h6
  have hshell : SameShell net6b net0 :=
    (hs6.trans ⟨rfl, rfl, rfl, rfl⟩).trans
      (((hs5.trans hs4).trans hs3).trans (hs2.trans hs1))
  refine ⟨hshell, hflag6, hv1, ?_⟩
  intro hs0
  have hsA := hl1 hs0
  have hsB := layout_of_nodes_eq ⟨hs2.2.1, hs2.2.2.1⟩ hn2 hsA
  have hsC := layout_of_nodes_eq ⟨hs3.2.1, hs3.2.2.1⟩ hn3 hsB
  have hsD := hl4 hsC
  have hsE := hl5 hsD
  exact hl6 hsE

/-- layerClass 0 means Input. -/
theorem layerClass_zero {l : Layer} (h : layerClass l = 0) : l = Layer.input := by
  cases l <;> simp_all [layerClass]

/-- layerClass 1 means Output. -/
theorem layerClass_one {l : Layer} (h : layerClass l = 1) : l = Layer.output := by
  cases l <;> simp_all [layerClass]

/-- layerClass 2 means interior (neither Input nor Output). -/
theorem layerClass_two {l : Layer} (h : layerClass l = 2) :
    l ≠ Layer.input ∧ l ≠ Layer.output := by
  cases l <;> simp_all [layerClass]

/-- An interior layer has layerClass 2. -/
theorem layerClass_of_ne {l : Layer} (h1 : l ≠ Layer.input) (h2 : l ≠ Layer.output) :
    layerClass l = 2 := by
  cases l <;> simp_all [layerClass]

/-- findNodeById returns a node carrying the requested id. -/
theorem findNodeById_id {net : Net} {id0 : ℕ} {n : Node}
    (h : net.findNodeById id0 = some n) : n.id = id0 := by
  have := List.find?_some h
  simpa using this

/-- Extraction lemma for classMatchB. -/
theorem classMatch_of_b {a b : Net} (h : a.classMatchB b = true) :
    ∀ w ∈ a.nodes, ∀ nl, b.findNodeById w.id = some nl →
      layerClass nl.layer = layerClass w.layer := by
  intro w hw nl hnl
  have h2 := List.all_eq_true.mp h w hw
  rw [hnl] at h2
  simpa using h2

/-- The inherited copy of a winner node keeps its id and its layer class
(given the id-mate class agreement between the parents). -/
theorem cloneNodeOf_class (loser : Net) (coin : ℕ → ℚ) (i : ℕ) (w : Node)
    (hm : ∀ nl, loser.findNodeById w.id = some nl →
      layerClass nl.layer = layerClass w.layer) :
    layerClass (cloneNodeOf loser coin i w).layer = layerClass w.layer ∧
    (cloneNodeOf loser coin i w).id = w.id := by
  rcases hf : loser.findNodeById w.id with _ | nl
  · constructor <;> simp [cloneNodeOf, hf]
  · by_cases hg : genBool (coin i) (mkRat 1 2) = true
    · constructor <;> simp [cloneNodeOf, hf, hg]
    · constructor
      · simpa [cloneNodeOf, hf, hg] using hm nl hf
      · simpa [cloneNodeOf, hf, hg] using findNodeById_id hf

/-- crossNodes only appends the clone sequence to the child's node list. -/
theorem crossNodes_eq (loser : Net) (coin : ℕ → ℚ) (skip : Option ℕ) :
    ∀ (l : List Node) (i : ℕ) (child : Net),
    crossNodes loser coin skip i child l =
      { child with nodes := child.nodes ++ cloneSeq loser coin skip i l } := by
  intro l
  induction l with
  | nil =>
    intro i child
    rw [crossNodes, cloneSeq]
    simp
  | cons w rest ih =>
    intro i child
    rw [crossNodes, cloneSeq]
    by_cases hsk : skip = some w.id
    · rw [if_pos hsk, if_pos hsk, ih]
    · rw [if_neg hsk, if_neg hsk, ih]
      simp [Net.add_node, cloneNodeOf, List.append_assoc]

/-- Splitting the clone sequence over an unskipped prefix: the prefix clones
pointwise, the tail continues at the shifted coin index. -/
theorem cloneSeq_split (loser : Net) (coin : ℕ → ℚ) (skip : Option ℕ) :
    ∀ (l1 l2 : List Node) (i : ℕ), (∀ w ∈ l1, skip ≠ some w.id) →
    ∃ pre, cloneSeq loser coin skip i (l1 ++ l2) =
        pre ++ cloneSeq loser coin skip (i + l1.length) l2 ∧
      pre.length = l1.length ∧
      ∀ j w, l1.get? j = some w → pre.get? j = some (cloneNodeOf loser coin (i + j) w) := by
  intro l1
  induction l1 with
  | nil =>
    intro l2 i h
    exact ⟨[], by simp, rfl, fun j w hj => by cases hj⟩
  | cons w rest ih =>
    intro l2 i h
    have hw : skip ≠ some w.id := h w (by simp)
    obtain ⟨pre, he, hlen, hsp⟩ := ih l2 (i + 1) (fun x hx => h x (by simp [hx]))
    refine ⟨cloneNodeOf loser coin i w :: pre, ?_, by simp [hlen], ?_⟩
    · rw [List.cons_append, cloneSeq, if_neg hw, he, List.cons_append]
      have harr : i + 1 + rest.length = i + (w :: rest).length := by
        simp only [List.length_cons]
        omega
      rw [harr]
    · intro j w2 hj
      cases j with
      | zero =>
        simp only [List.get?_cons_zero] at hj
        injection hj with hj
        subst hj
        simp
      | succ j =>
        simp only [List.get?_cons_succ] at hj ⊢
        have harr : i + 1 + j = i + (j + 1) := by omega
        rw [← harr]
        exact hsp j w2 hj

/-- Every clone originates from some listed winner node. -/
theorem cloneSeq_mem (loser : Net) (coin : ℕ → ℚ) (skip : Option ℕ) :
    ∀ (l : List Node) (i : ℕ) (c : Node), c ∈ cloneSeq loser coin skip i l →
      ∃ w, w ∈ l ∧ ∃ i2, c = cloneNodeOf loser coin i2 w := by
  intro l
  induction l with
  | nil =>
    intro i c hc
    rw [cloneSeq] at hc
    cases hc
  | cons w rest ih =>
    intro i c hc
    rw [cloneSeq] at hc
    by_cases hsk : skip = some w.id
    · rw [if_pos hsk] at hc
      obtain ⟨w2, hw2, hi2⟩ := ih (i + 1) c hc
      exact ⟨w2, by simp [hw2], hi2⟩
    · rw [if_neg hsk] at hc
      rcases List.mem_cons.mp hc with hc | hc
      · exact ⟨w, by simp, i, hc⟩
      · obtain ⟨w2, hw2, hi2⟩ := ih (i + 1) c hc
        exact ⟨w2, by simp [hw2], hi2⟩

/-- The connection-inheritance loop keeps the child's shell, flag, node count
and node layers (it only appends connections and registers them). -/
theorem crossConns_spec (winner loser : Net) (coin : ℕ → ℚ) (skC skN : Option ℕ) :
    ∀ (l : List Connection) (i : ℕ) (child child2 : Net),
      crossConns winner loser coin skC skN i child l = some child2 →
      child2.id = child.id ∧ child2.input_count = child.input_count ∧
      child2.output_count = child.output_count ∧
      child2.fitness_info = child.fitness_info ∧
      child2.is_evaluation_order_up_to_date = child.is_evaluation_order_up_to_date ∧
      child2.nodes.length = child.nodes.length ∧
      ∀ k, layersAt child2.nodes k = layersAt child.nodes k := by
  intro l
  induction l with
  | nil =>
    intro i child child2 h
    rw [crossConns] at h
    injection h with h
    subst h
    exact ⟨rfl, rfl, rfl, rfl, rfl, rfl, fun k => rfl⟩
  | cons cw rest ih =>
    intro i child child2 h
    rw [crossConns] at h
    split at h
    · exact ih _ _ _ h
    · simp only [Option.bind_eq_bind, Option.bind_eq_some] at h
      obtain ⟨win_in, hwi, win_out, hwo, h⟩ := h
      split at h
      · exact ih _ _ _ h
      · simp only [Option.bind_eq_bind, Option.bind_eq_some] at h
        obtain ⟨in_node, hin, out_node, hout, ci, hci, co, hco, h⟩ := h
        obtain ⟨e1, e2, e3, e4, e5, e6, e7⟩ := ih _ _ _ h
        refine ⟨e1, e2, e3, e4, e5, ?_, ?_⟩
        · exact e6.trans (add_connection_layersAt _ _ _ _ _ _).1
        · intro k
          exact (e7 k).trans ((add_connection_layersAt _ _ _ _ _ _).2 k)

/-- The inherited node list of a standard-layout winner is itself standard:
the skipped id (if any) belongs to an interior node, so the Input and Output
slots are cloned in place with their layer classes intact. -/
theorem cloneSeq_layout (winner loser : Net) (coin : ℕ → ℚ) (skip : Option ℕ)
    (hsw : layoutStandard winner)
    (hnw : (winner.nodes.map Node.id).Nodup)
    (hm : ∀ w ∈ winner.nodes, ∀ nl, loser.findNodeById w.id = some nl →
      layerClass nl.layer = layerClass w.layer)
    (hsk : ∀ id0, skip = some id0 → ∃ n, n ∈ winner.nodes ∧ n.id = id0 ∧
      layerClass n.layer = 2) :
    ∀ (x : Net), x.input_count = winner.input_count →
      x.output_count = winner.output_count →
      x.nodes = cloneSeq loser coin skip 0 winner.nodes →
      layoutStandard x := by
  intro x hic hoc hnodes
  obtain ⟨hle, hsp⟩ := hsw
  have hnoskip : ∀ w ∈ winner.nodes.take (winner.input_count + winner.output_count),
      skip ≠ some w.id := by
    intro w hw hcon
    obtain ⟨n, hn, hnid, hncls⟩ := hsk w.id hcon
    obtain ⟨j, hj⟩ := List.mem_iff_get?.mp hw
    have hjlt : j < (winner.nodes.take (winner.input_count + winner.output_count)).length :=
      get?_lt_len hj
    rw [List.length_take] at hjlt
    have hjlt2 : j < winner.input_count + winner.output_count :=
      lt_of_lt_of_le hjlt (min_le_left _ _)
    rw [List.get?_take hjlt2] at hj
    have hwmem : w ∈ winner.nodes := List.get?_mem hj
    have hcls : layerClass w.layer ≠ 2 := by
      obtain ⟨c1, c2, _⟩ := hsp j w hj
      by_cases hjin : j < winner.input_count
      · rw [c1 hjin]
        simp [layerClass]
      · rw [c2 (by omega) hjlt2]
        simp [layerClass]
    have hnw2 : n = w := List.inj_on_of_nodup_map hnw hn hwmem (by rw [hnid])
    rw [hnw2] at hncls
    exact hcls hncls
  obtain ⟨pre, hpre, hplen, hpsp⟩ := cloneSeq_split loser coin skip
    (winner.nodes.take (winner.input_count + winner.output_count))
    (winner.nodes.drop (winner.input_count + winner.output_count)) 0 hnoskip
  have hsplit : cloneSeq loser coin skip 0 winner.nodes =
      pre ++ cloneSeq loser coin skip
        (0 + (winner.nodes.take (winner.input_count + winner.output_count)).length)
        (winner.nodes.drop (winner.input_count + winner.output_count)) := by
    conv_lhs =>
      rw [← List.take_append_drop (winner.input_count + winner.output_count) winner.nodes]
    exact hpre
  have hplen2 : pre.length = winner.input_count + winner.output_count := by
    rw [hplen, List.length_take]
    exact Nat.min_eq_left hle
  refine ⟨?_, ?_⟩
  · rw [hic, hoc, hnodes, hsplit, List.length_append, hplen2]
    omega
  · intro k nk hk
    rw [hnodes, hsplit] at hk
    rw [hic, hoc]
    by_cases hklt : k < winner.input_count + winner.output_count
    · rw [List.get?_append (by omega : k < pre.length)] at hk
      have hktake : k < (winner.nodes.take (winner.input_count + winner.output_count)).length := by
        rw [List.length_take]
        exact Nat.lt_min.mpr ⟨hklt, by omega⟩
      rcases hg : (winner.nodes.take (winner.input_count + winner.output_count)).get? k
          with _ | w
      · rw [List.get?_eq_none] at hg
        omega
      · have hwin : winner.nodes.get? k = some w := by
          rw [← List.get?_take hklt]
          exact hg
        have hpk := hpsp k w hg
        rw [hk] at hpk
        injection hpk with hpk
        have hcl := cloneNodeOf_class loser coin (0 + k) w
          (hm w (List.get?_mem hwin))
        rw [← hpk] at hcl
        obtain ⟨c1, c2, _⟩ := hsp k w hwin
        refine ⟨?_, ?_, fun hge => by omega⟩
        · intro hki
          have hw0 : layerClass w.layer = 0 := by
            rw [c1 hki]
            rfl
          exact layerClass_zero (hcl.1.trans hw0)
        · intro hge hlt
          have hw1 : layerClass w.layer = 1 := by
            rw [c2 hge hlt]
            rfl
          exact layerClass_one (hcl.1.trans hw1)
    · rw [List.get?_append_right (by omega : pre.length ≤ k)] at hk
      have hmem := List.get?_mem hk
      obtain ⟨w, hwmem, i2, hceq⟩ := cloneSeq_mem loser coin skip _ _ _ hmem
      obtain ⟨j, hj⟩ := List.mem_iff_get?.mp hwmem
      rw [List.get?_drop] at hj
      have hwcls : layerClass w.layer = 2 := by
        obtain ⟨_, _, c3⟩ := hsp _ w hj
        obtain ⟨d1, d2⟩ := c3 (by omega)
        exact layerClass_of_ne d1 d2
      have hcl := cloneNodeOf_class loser coin i2 w (hm w (List.get?_mem hj))
      refine ⟨fun hki => by omega, fun hge hlt => by omega, fun hge => ?_⟩
      rw [hceq]
      exact layerClass_two (hcl.1.trans hwcls)

/-- The post-draw crossover pipeline yields (when it yields at all) a child
with the standard layout, given a standard winner with distinct node ids,
id-mate layer-class agreement with the loser, and an interior skip id. -/
theorem crossCore (winner loser : Net) (p : MutationParams) (mult : ℚ)
    (coinN coinC : ℕ → ℚ) (skN skC : Option ℕ) (cid : ℕ) (mch : MutChoices)
    (hsw : layoutStandard winner)
    (hnw : (winner.nodes.map Node.id).Nodup)
    (hm : ∀ w ∈ winner.nodes, ∀ nl, loser.findNodeById w.id = some nl →
      layerClass nl.layer = layerClass w.layer)
    (hsk : ∀ id0, skN = some id0 → ∃ n, n ∈ winner.nodes ∧ n.id = id0 ∧
      layerClass n.layer = 2) :
    (crossRest winner loser p mult coinN coinC skN skC cid mch).elim True
      layoutStandard := by
  have hchild1 : layoutStandard (crossNodes loser coinN skN 0
      ⟨cid, winner.input_count, winner.output_count, [], [], 0, false, []⟩
      winner.nodes) := by
    rw [crossNodes_eq]
    exact cloneSeq_layout winner loser coinN skN hsw hnw hm hsk _ rfl rfl (by simp)
  have hflag1 : (crossNodes loser coinN skN 0
      ⟨cid, winner.input_count, winner.output_count, [], [], 0, false, []⟩
      winner.nodes).is_evaluation_order_up_to_date = false := by
    rw [crossNodes_eq]
  rw [crossRest]
  rcases hc2 : crossConns winner loser coinC skC skN 0
      (crossNodes loser coinN skN 0
        ⟨cid, winner.input_count, winner.output_count, [], [], 0, false, []⟩
        winner.nodes)
      winner.connections with _ | child2
  · simp [hc2]
  · simp only [hc2, Option.bind_eq_bind, Option.some_bind]
    obtain ⟨e1, e2, e3, e4, e5, e6, e7⟩ := crossConns_spec _ _ _ _ _ _ _ _ _ hc2
    have hl2 : layoutStandard child2 := by
      refine layoutStandard_transfer ?_ ?_ ?_ hchild1
      · exact ⟨e2, e3⟩
      · exact e6
      · exact e7
    have hf2 : child2.is_evaluation_order_up_to_date = false := e5.trans hflag1
    rcases hb : child2.build_evaluation_order with _ | child3
    · simp [hb]
    · simp only [hb, Option.some_bind]
      obtain ⟨hs3, hc3, hflag3, hlen3, hl3⟩ := build_evaluation_order_spec child2 child3 hf2 hb
      by_cases hv : child3.verify_invariants = true
      · rw [if_pos hv]
        rcases hm5 : child3.mutate_self p mult mch with _ | child4
        · exact trivial
        · exact (mutate_self_spec _ _ _ _ _ hm5).2.2.2 (hl3 hl2)
      · rw [if_neg hv]
        exact trivial

/-- The winner/loser pair is always one of the two parent orderings. -/
theorem crossPair_cases (a b : Net) (ch : CrossChoices) :
    ((crossPair a b ch).1 = a ∧ (crossPair a b ch).2 = b) ∨
    ((crossPair a b ch).1 = b ∧ (crossPair a b ch).2 = a) := by
  rw [crossPair]
  by_cases h1 : b.fitness_info ≤ a.fitness_info <;>
    by_cases h2 : genBool ch.swap_draw (mkRat 1 5) = true <;>
      simp [h1, h2]

/-- The excluded node id (when drawn) is the id of a winner Hidden node. -/
theorem crossSkipNode_spec (a b : Net) (p : MutationParams) (mult : ℚ)
    (ch : CrossChoices) :
    ∀ id0, crossSkipNode a b p mult ch = some id0 →
      ∃ n, n ∈ (crossPair a b ch).1.nodes ∧ n.id = id0 ∧ layerClass n.layer = 2 := by
  intro id0 h
  rw [crossSkipNode] at h
  split at h
  · rw [chooseIndex] at h
    have hmem := List.get?_mem h
    rw [List.mem_map] at hmem
    obtain ⟨n, hn, hnid⟩ := hmem
    rw [List.mem_filter] at hn
    refine ⟨n, hn.1, hnid, ?_⟩
    have h2 := hn.2
    rcases hl : n.layer with _ | d
    all_goals simp_all [layerClass]
  · cases h

/-- Crossover of standard-layout parents with distinct node ids and id-mate
layer-class agreement produces (when it produces at all) a standard-layout
child. -/
theorem cross_layout (a b : Net) (p : MutationParams) (mult : ℚ) (ch : CrossChoices)
    (hsa : a.layoutStandardB = true) (hsb : b.layoutStandardB = true)
    (hna : a.idsNodupB = true) (hnb : b.idsNodupB = true)
    (hab : a.classMatchB b = true) (hba : b.classMatchB a = true) :
    (a.cross_into_new_net b p mult ch).elim True layoutStandard := by
  have hsa2 := layoutStandard_of_b hsa
  have hsb2 := layoutStandard_of_b hsb
  have hna2 : (a.nodes.map Node.id).Nodup := by
    have := hna
    rw [Net.idsNodupB] at this
    exact of_decide_eq_true this
  have hnb2 : (b.nodes.map Node.id).Nodup := by
    have := hnb
    rw [Net.idsNodupB] at this
    exact of_decide_eq_true this
  have hmab := classMatch_of_b hab
  have hmba := classMatch_of_b hba
  have hsk := crossSkipNode_spec a b p mult ch
  rw [Net.cross_into_new_net]
  rcases crossPair_cases a b ch with ⟨hw, hlo⟩ | ⟨hw, hlo⟩ <;>
    rw [hw] at hsk ⊢ <;> rw [hlo]
  · exact crossCore a b p mult ch.node_coin ch.conn_coin _ _ ch.child_net_id ch.mutCh
      hsa2 hna2 hmab hsk
  · exact crossCore b a p mult ch.node_coin ch.conn_coin _ _ ch.child_net_id ch.mutCh
      hsb2 hnb2 hmba hsk

/-- The body of set_inputs: each value lands in the same-position node's
value slot, later nodes are untouched. -/
theorem setInputsLoop_spec :
    ∀ (vals : List ℚ) (nodes nodes2 : List Node),
      setInputsLoop nodes vals = some nodes2 →
      nodes2.length = nodes.length ∧
      (∀ k, vals.length ≤ k → nodes2.get? k = nodes.get? k) ∧
      (∀ k v, vals.get? k = some v → ∃ n, nodes.get? k = some n ∧
        nodes2.get? k = some { n with value := v }) := by
  intro vals
  induction vals with
  | nil =>
    intro nodes nodes2 h
    rw [setInputsLoop] at h
    injection h with h
    subst h
    exact ⟨rfl, fun k _ => rfl, fun k v hv => by cases hv⟩
  | cons v vs ih =>
    intro nodes nodes2 h
    cases nodes with
    | nil =>
      rw [setInputsLoop] at h
      cases h
    | cons n rest =>
      rw [setInputsLoop] at h
      split at h
      · rw [Option.map_eq_some'] at h
        obtain ⟨tail, htail, h⟩ := h
        subst h
        obtain ⟨ihlen, ihrest, ihset⟩ := ih rest tail htail
        refine ⟨by simp [ihlen], ?_, ?_⟩
        · intro k hk
          cases k with
          | zero => simp at hk
          | succ k =>
            simp only [List.get?_cons_succ]
            exact ihrest k (by simp only [List.length_cons] at hk; omega)
        · intro k v2 hv2
          cases k with
          | zero =>
            simp only [List.get?_cons_zero] at hv2
            injection hv2 with hv2
            subst hv2
            exact ⟨n, rfl, rfl⟩
          | succ k =>
            simp only [List.get?_cons_succ] at hv2 ⊢
            exact ihset k v2 hv2
      · cases h

/-- The body of set_inputs succeeds when every written slot holds an Input
node. -/
theorem setInputsLoop_isSome :
    ∀ (vals : List ℚ) (nodes : List Node),
      (∀ k, k < vals.length → ∃ n, nodes.get? k = some n ∧ n.layer = Layer.input) →
      ∃ nodes2, setInputsLoop nodes vals = some nodes2 := by
  intro vals
  induction vals with
  | nil =>
    intro nodes h
    exact ⟨nodes, by rw [setInputsLoop]⟩
  | cons v vs ih =>
    intro nodes h
    obtain ⟨n0, hn0, hl0⟩ := h 0 (by simp)
    cases nodes with
    | nil => cases hn0
    | cons n rest =>
      simp only [List.get?_cons_zero] at hn0
      injection hn0 with hn0
      subst hn0
      obtain ⟨tail, htail⟩ := ih rest (fun k hk => by
        obtain ⟨m, hmg, hlm⟩ := h (k + 1) (by simp only [List.length_cons]; omega)
        simp only [List.get?_cons_succ] at hmg
        exact ⟨m, hmg, hlm⟩)
      refine ⟨{ n with value := v } :: tail, ?_⟩
      rw [setInputsLoop, if_pos hl0, htail]
      rfl

/-- mapM of the output-reading check over all-Output nodes gives the plain
value list. -/
theorem mapM_output_values :
    ∀ (l : List Node), (∀ n ∈ l, n.layer = Layer.output) →
      l.mapM (fun n => if n.layer = Layer.output then some n.value else Option.none) =
        some (l.map Node.value) := by
  intro l
  induction l with
  | nil =>
    intro _
    rfl
  | cons n rest ih =>
    intro h
    have hn := h n (by simp)
    rw [List.mapM_cons, if_pos hn, ih (fun m hm => h m (by simp [hm]))]
    rfl

/-- C9: the standard IO slot layout is an invariant of the genome pipeline:
Net::new places its input_count Input nodes at positions 0..input_count and
its output_count Output nodes right after them; mutate_self and (for
standard-layout parents with distinct node ids whose shared ids agree on the
Input/Output/interior class) cross_into_new_net preserve that layout, with
the genome's input/output counts unchanged by mutation; set_inputs writes
value j into the node at position j (asserting it is an Input node, leaving
every node from input_count on untouched), and get_outputs reads exactly the
values of the nodes at positions input_count..input_count+output_count, in
order. -/
theorem standard_io_slot_layout :
    (∀ (netId ic oc : ℕ) (ids : ℕ → ℕ),
      layoutStandard (Net.new netId ic oc ids) ∧
      (Net.new netId ic oc ids).input_count = ic ∧
      (Net.new netId ic oc ids).output_count = oc) ∧
    (∀ (net : Net) (p : MutationParams) (mult : ℚ) (ch : MutChoices),
      layoutStandard net →
      (net.mutate_self p mult ch).elim True (fun net2 =>
        layoutStandard net2 ∧ net2.input_count = net.input_count ∧
        net2.output_count = net.output_count)) ∧
    (∀ (a b : Net) (p : MutationParams) (mult : ℚ) (ch : CrossChoices),
      a.layoutStandardB = true → b.layoutStandardB = true →
      a.idsNodupB = true → b.idsNodupB = true →
      a.classMatchB b = true → b.classMatchB a = true →
      (a.cross_into_new_net b p mult ch).elim True layoutStandard) ∧
    (∀ (net : Net) (vals : List ℚ), layoutStandard net →
      vals.length = net.input_count →
      (net.set_inputs vals).elim False (fun net2 =>
        net2.nodes.length = net.nodes.length ∧
        (∀ k v, vals.get? k = some v → ∃ n, net.nodes.get? k = some n ∧
          net2.nodes.get? k = some { n with value := v }) ∧
        (∀ k, net.input_count ≤ k → net2.nodes.get? k = net.nodes.get? k))) ∧
    (∀ net : Net, layoutStandard net →
      net.get_outputs =
        some (((net.nodes.drop net.input_count).take net.output_count).map
          Node.value)) := by
  refine ⟨?_, ?_, ?_, ?_, ?_⟩
  · intro netId ic oc ids
    obtain ⟨h1, _, h3, h4⟩ := new_layoutStandard netId ic oc ids
    exact ⟨h1, h3, h4⟩
  · intro net p mult ch hs
    rcases hm : net.mutate_self p mult ch with _ | net2
    · exact trivial
    · obtain ⟨hsh, _, _, hl⟩ := mutate_self_spec net p mult ch net2 hm
      exact ⟨hl hs, hsh.2.1, hsh.2.2.1⟩
  · exact cross_layout
  · intro net vals hs hlen
    rw [Net.set_inputs, if_pos hlen]
    have hslots : ∀ k, k < vals.length → ∃ n, net.nodes.get? k = some n ∧
        n.layer = Layer.input := by
      intro k hk
      have hk2 : k < net.input_count := by omega
      have hk3 : k < net.nodes.length := by
        have := hs.1
        omega
      rcases hg : net.nodes.get? k with _ | n
      · rw [List.get?_eq_none] at hg
        omega
      · exact ⟨n, rfl, (hs.2 k n hg).1 hk2⟩
    obtain ⟨nodes2, hloop⟩ := setInputsLoop_isSome vals net.nodes hslots
    rw [hloop]
    simp only [Option.map_some']
    obtain ⟨l1, l2, l3⟩ := setInputsLoop_spec vals net.nodes nodes2 hloop
    exact ⟨l1, fun k v hv => l3 k v hv, fun k hk => l2 k (by omega)⟩
  · intro net hs
    rw [Net.get_outputs]
    apply mapM_output_values
    intro n hn
    obtain ⟨j, hj⟩ := List.mem_iff_get?.mp hn
    have hjlt : j < net.output_count := by
      have h1 := get?_lt_len hj
      rw [List.length_take] at h1
      exact lt_of_lt_of_le h1 (min_le_left _ _)
    rw [List.get?_take hjlt, List.get?_drop] at hj
    obtain ⟨_, c2, _⟩ := hs.2 (net.input_count + j) n hj
    exact c2 (by omega) (by omega)

/-- Witness for C9: all five parts at concrete inputs — a fresh Net::new(2,1),
the built C3 genome for mutation and the IO calls, and the C1 parent pair for
crossover. -/
theorem standard_io_slot_layout_witness :
    (layoutStandard (Net.new 0 2 1 (fun k => k + 1)) ∧
      (Net.new 0 2 1 (fun k => k + 1)).input_count = 2 ∧
      (Net.new 0 2 1 (fun k => k + 1)).output_count = 1) ∧
    (netC3built.mutate_self zeroMutParams 1 mutChoices0).elim True (fun net2 =>
      layoutStandard net2 ∧ net2.input_count = netC3built.input_count ∧
      net2.output_count = netC3built.output_count) ∧
    (winnerC1.cross_into_new_net loserC1 zeroMutParams 1 crossChoicesC1).elim True
      layoutStandard ∧
    (netC3built.set_inputs [1, 0]).elim False (fun net2 =>
      net2.nodes.length = netC3built.nodes.length ∧
      (∀ k v, List.get? [(1 : ℚ), 0] k = some v → ∃ n, netC3built.nodes.get? k = some n ∧
        net2.nodes.get? k = some { n with value := v }) ∧
      (∀ k, netC3built.input_count ≤ k → net2.nodes.get? k = netC3built.nodes.get? k)) ∧
    netC3built.get_outputs =
      some (((netC3built.nodes.drop netC3built.input_count).take
        netC3built.output_count).map Node.value) :=
  ⟨standard_io_slot_layout.1 0 2 1 (fun k => k + 1),
   standard_io_slot_layout.2.1 netC3built zeroMutParams 1 mutChoices0
     (layoutStandard_of_b (by decide)),
   standard_io_slot_layout.2.2.1 winnerC1 loserC1 zeroMutParams 1 crossChoicesC1
     (by decide) (by decide) (by decide) (by decide) (by decide) (by decide),
   standard_io_slot_layout.2.2.2.1 netC3built [1, 0] (layoutStandard_of_b (by decide))
     (by decide),
   standard_io_slot_layout.2.2.2.2 netC3built (layoutStandard_of_b (by decide))⟩

/-- Whatever the draws, a completed crossover pipeline returns a child with
the requested fresh id, zero fitness, a current evaluation order, and the
invariants verified. -/
theorem crossRest_fresh (winner loser : Net) (p : MutationParams) (mult : ℚ)
    (coinN coinC : ℕ → ℚ) (skN skC : Option ℕ) (cid : ℕ) (mch : MutChoices) :
    (crossRest winner loser p mult coinN coinC skN skC cid mch).elim True (fun child =>
      child.id = cid ∧ child.fitness_info = 0 ∧
      child.is_evaluation_order_up_to_date = true ∧
      child.verify_invariants = true) := by
  have h1 : (crossNodes loser coinN skN 0
      ⟨cid, winner.input_count, winner.output_count, [], [], 0, false, []⟩
      winner.nodes).id = cid := by
    rw [crossNodes_eq]
  have h2 : (crossNodes loser coinN skN 0
      ⟨cid, winner.input_count, winner.output_count, [], [], 0, false, []⟩
      winner.nodes).fitness_info = 0 := by
    rw [crossNodes_eq]
  have h3 : (crossNodes loser coinN skN 0
      ⟨cid, winner.input_count, winner.output_count, [], [], 0, false, []⟩
      winner.nodes).is_evaluation_order_up_to_date = false := by
    rw [crossNodes_eq]
  rw [crossRest]
  rcases hc2 : crossConns winner loser coinC skC skN 0
      (crossNodes loser coinN skN 0
        ⟨cid, winner.input_count, winner.output_count, [], [], 0, false, []⟩
        winner.nodes)
      winner.connections with _ | child2
  · exact trivial
  · simp only [Option.bind_eq_bind, Option.some_bind]
    obtain ⟨e1, _, _, e4, e5, _, _⟩ := crossConns_spec _ _ _ _ _ _ _ _ _ hc2
    rcases hb : child2.build_evaluation_order with _ | child3
    · exact trivial
    · simp only [Option.some_bind]
      obtain ⟨hs3, _, hflag3, _, _⟩ :=
        build_evaluation_order_spec child2 child3 (e5.trans h3) hb
      by_cases hv : child3.verify_invariants = true
      · rw [if_pos hv]
        rcases hm5 : child3.mutate_self p mult mch with _ | child4
        · exact trivial
        · obtain ⟨hsh, hfl, hvr, _⟩ := mutate_self_spec _ _ _ _ _ hm5
          refine ⟨?_, ?_, hfl, hvr⟩
          · exact (hsh.1.trans (hs3.1.trans e1)).trans h1
          · exact (hsh.2.2.2.trans (hs3.2.2.2.trans e4)).trans h2
      · rw [if_neg hv]
        exact trivial

/-- C10: cross_into_new_net is non-destructive and builds a fresh child: the
parents are read-only inputs of the pure crossover function (the Rust
signature borrows them immutably and every write goes to the freshly
allocated child), and whenever crossover returns a child at all, that child
carries the fresh net id drawn for it, a zeroed fitness record, a current
evaluation order, and passes verify_invariants. -/
theorem cross_produces_fresh_child (a b : Net) (p : MutationParams) (mult : ℚ)
    (ch : CrossChoices) :
    (a.cross_into_new_net b p mult ch).elim True (fun child =>
      child.id = ch.child_net_id ∧ child.fitness_info = 0 ∧
      child.is_evaluation_order_up_to_date = true ∧
      child.verify_invariants = true) := by
  rw [Net.cross_into_new_net]
  exact crossRest_fresh _ _ p mult _ _ _ _ ch.child_net_id ch.mutCh

end SnakeBevy
